import Mathlib

/-!
Verification of the `streamMulti` segment pipeline (src/src/Message.tsx).

The development shallowly embeds the stream-consumption loop of `streamMulti`
together with its helper functions `appendUI`, `addSegment`, `streamTextSegment`,
`streamToolSegment`, `markLastSegmentDone` and the renderer dispatch of
`handleRender`.  Events are processed one per tick; every externally observable
action (calls on the overall display sink `ui`, on per-segment text sinks, on
per-segment tool sinks, and invocations of the `onSegment` observer) is recorded
in an action trace tagged with the tick at which it occurs.  Asynchronous
renderer work (promises / async generators) is recorded as a task whose
observable actions are stamped with the tick at which the underlying promise
settles; `timedTrace` merges the synchronous trace with the task actions by
time, giving the externally observable order of all sink activity.
-/

namespace StreamMulti

/-- An upstream event of `result.fullStream` as consumed by the switch in
`streamMulti`.  Tool arguments and error causes are modelled as strings. -/
inductive Event : Type
  | textDelta (text : String)
  | toolCallDelta
  | toolCall (toolCallId toolName : String) (args : String)
  | error (cause : String)
  | finish
deriving DecidableEq, Repr

/-- Whether an event is an `error` event. -/
def Event.isErr : Event → Bool
  | .error _ => true
  | _ => false

/-- The discriminant of a Segment: text or tool-call. -/
inductive SegKind : Type
  | text
  | tool
deriving DecidableEq, Repr

/-- A `Segment` as built by `streamMulti`, with bookkeeping flags.  For a text
segment, `text` is the mutable accumulator `latestSegment.text` and `deltas`
records, in arrival order, every `textDelta` string that was fed into the
segment (the seed passed to `createStreamableValue` plus every later append).
`sinkDone` records whether the per-segment text sink's `done()` was called;
`notified` whether `onSegment` was invoked with this segment. -/
structure Seg : Type where
  kind : SegKind
  deltas : List String := []
  text : String := ""
  toolCallId : String := ""
  toolName : String := ""
  args : String := ""
  sinkDone : Bool := false
  notified : Bool := false
deriving DecidableEq, Repr

/-- An externally observable action.  `uiUpdate`/`uiAppend`/`uiError`/`uiDone`
are calls on the overall display sink `ui` (a segment's mount carries the index
of the segment being mounted); `textAppend`/`textDone` are calls on a text
segment's private sink; `toolUpdate`/`toolDone` are calls on a tool segment's
private `toolUi` sink; `notify` is an `onSegment` invocation. -/
inductive Act : Type
  | uiUpdate (seg : Nat)
  | uiAppend (seg : Nat)
  | uiError (cause : String)
  | uiDone
  | textAppend (seg : Nat) (delta : String)
  | textDone (seg : Nat)
  | notify (seg : Nat)
  | toolUpdate (seg : Nat) (node : String)
  | toolDone (seg : Nat) (node : String)
deriving DecidableEq, Repr

/-- The shape of the value a tool's `generate` renderer returns, as dispatched
on by `handleRender`: a plain value, a synchronous generator, a promise that
resolves after `lat` ticks, an async generator whose steps each take the given
number of ticks, or a renderer that throws / returns a rejecting promise. -/
inductive RBehavior : Type
  | plain (node : String)
  | syncGen (yields : List String) (ret : String)
  | promiseLat (lat : Nat) (node : String)
  | asyncGen (yields : List (Nat × String)) (retLat : Nat) (ret : String)
  | fails
deriving DecidableEq, Repr

/-- A render task spawned by `streamToolSegment` calling `handleRender`:
the index of the tool segment it renders, the tick at which it was spawned,
and the behavior of the renderer. -/
structure Task : Type where
  seg : Nat
  spawnTick : Nat
  rb : RBehavior
deriving DecidableEq, Repr

/-- The state of the `streamMulti` pipeline between event-processing steps:
the segment list, the timed trace of observable actions so far, the spawned
render tasks, the `initialRemoved` flag of `appendUI`, and the error cause
once the consumption loop has thrown. -/
structure St : Type where
  segments : List Seg := []
  trace : List (Nat × Act) := []
  tasks : List Task := []
  initialRemoved : Bool := false
  errored : Option String := none
deriving DecidableEq, Repr

/-- The untimed action sequence of a state's trace. -/
def St.acts (s : St) : List Act := s.trace.map Prod.snd

/-- Append one observable action at tick `t`. -/
def emit (t : Nat) (a : Act) (s : St) : St :=
  { s with trace := s.trace ++ [(t, a)] }

/-- Append several observable actions at tick `t`, in order. -/
def emits (t : Nat) (acts : List Act) (s : St) : St :=
  { s with trace := s.trace ++ acts.map (fun a => (t, a)) }

/-- Model of `appendUI`: the first mounted segment replaces the initial
placeholder via `ui.update`, every later one is appended via `ui.append`;
`initialRemoved` is flipped on the first call.  `k` is the index of the
segment being mounted. -/
def appendUI (t : Nat) (k : Nat) (s : St) : St :=
  if s.initialRemoved then
    emit t (Act.uiAppend k) s
  else
    { emit t (Act.uiUpdate k) s with initialRemoved := true }

/-- The closing actions of segment `k`: for a text segment its sink's
`done()` followed by the `onSegment` call, for a tool segment just the
`onSegment` call (mirroring `markLastSegmentDone`). -/
def closingBlock (k : Nat) (kd : SegKind) : List Act :=
  (if kd = SegKind.text then [Act.textDone k] else []) ++ [Act.notify k]

/-- The effect of `markLastSegmentDone` on the segment it closes: the text
sink of a text segment is sealed, and the segment is marked as notified. -/
def closeSeg (sg : Seg) : Seg :=
  if sg.kind = SegKind.text then { sg with sinkDone := true, notified := true }
  else { sg with notified := true }

/-- Model of `markLastSegmentDone`: if a latest segment exists, seal its text
sink when it is a text segment, then invoke `onSegment` on it. -/
def markLastSegmentDone (t : Nat) (s : St) : St :=
  match s.segments.getLast? with
  | none => s
  | some last =>
      let k := s.segments.length - 1
      { s with
        segments := s.segments.dropLast ++ [closeSeg last],
        trace := s.trace ++ (closingBlock k last.kind).map (fun a => (t, a)) }

/-- Model of `addSegment`: first `markLastSegmentDone()` (closing the previous
segment), then push the new segment. -/
def addSegment (t : Nat) (sg : Seg) (s : St) : St :=
  let s1 := markLastSegmentDone t s
  { s1 with segments := s1.segments ++ [sg] }

/-- A fresh text segment as built when a `text-delta` opens a new segment:
the accumulator and the new sink are seeded with the delta. -/
def seedSeg (d : String) : Seg :=
  { kind := SegKind.text, deltas := [d], text := d }

/-- A fresh tool segment carrying the tool call's id, name and args verbatim. -/
def toolSeg (id name args : String) : Seg :=
  { kind := SegKind.tool, toolCallId := id, toolName := name, args := args }

/-- The delta-append performed on an open text segment. -/
def extendSeg (d : String) (sg : Seg) : Seg :=
  { sg with text := sg.text ++ d, deltas := sg.deltas ++ [d] }

/-- Model of `streamTextSegment`: extend the latest segment when it is a text
segment (appending the delta to the accumulator and to the segment's sink),
otherwise mount a new text segment seeded with the delta and add it. -/
def streamTextSegment (t : Nat) (d : String) (s : St) : St :=
  match s.segments.getLast? with
  | some last =>
      if last.kind = SegKind.text then
        let k := s.segments.length - 1
        { s with
          segments := s.segments.dropLast ++ [extendSeg d last],
          trace := s.trace ++ [(t, Act.textAppend k d)] }
      else
        addSegment t (seedSeg d) (appendUI t s.segments.length s)
  | none =>
      addSegment t (seedSeg d) (appendUI t s.segments.length s)

/-- The sink actions performed synchronously by `handleRender` during the
spawning step itself: a plain value gives a single `done` call, a synchronous
generator gives one `update` per yield and a final `done`; promise and async
generator renderers perform nothing synchronously, and a failing renderer
never touches its sink. -/
def renderInline (k : Nat) : RBehavior → List Act
  | .plain node => [Act.toolDone k node]
  | .syncGen yields ret => yields.map (Act.toolUpdate k) ++ [Act.toolDone k ret]
  | _ => []

/-- Model of `streamToolSegment`: mount a fresh tool sink, dispatch the tool's
renderer through `handleRender` (or seal the sink with the fallback when the
tool is unknown), then add the immutable tool segment. -/
def streamToolSegment (tools : String → Option RBehavior) (t : Nat)
    (id name args : String) (s : St) : St :=
  let k := s.segments.length
  let s1 := appendUI t k s
  let s2 :=
    match tools name with
    | some rb => { emits t (renderInline k rb) s1 with tasks := s1.tasks ++ [⟨k, t, rb⟩] }
    | none => emit t (Act.toolDone k "Tool not found") s1
  addSegment t (toolSeg id name args) s2

/-- One iteration of the consumption loop's switch at tick `t`.  After an
`error` event has been thrown the loop has exited, so every later event is
ignored. -/
def step (tools : String → Option RBehavior) (t : Nat) (s : St) (e : Event) : St :=
  if s.errored.isSome then s
  else
    match e with
    | .textDelta d => streamTextSegment t d s
    | .toolCallDelta => s
    | .toolCall id name args => streamToolSegment tools t id name args s
    | .error c => { emit t (Act.uiError c) s with errored := some c }
    | .finish => markLastSegmentDone t s

/-- Run the consumption loop over a list of events, the first event processed
at tick `i`. -/
def stepsAux (tools : String → Option RBehavior) (i : Nat) (s : St) : List Event → St
  | [] => s
  | e :: es => stepsAux tools (i + 1) (step tools i s e) es

/-- The pipeline state after processing all events (before stream exhaustion
is observed). -/
def runSteps (tools : String → Option RBehavior) (es : List Event) : St :=
  stepsAux tools 0 {} es

/-- The full run of the consumption loop: process every event, then, when no
error was thrown, observe stream exhaustion and call `ui.done()` (at tick
`es.length`).  When an error was thrown the loop exited through the catch
block, which already sealed `ui` with `ui.error`. -/
def runStream (tools : String → Option RBehavior) (es : List Event) : St :=
  let s := runSteps tools es
  if s.errored.isSome then s else emit es.length Act.uiDone s

/-- Concatenation of a list of lists (used instead of `List.join` to keep the
development self-contained). -/
def catLists {α : Type} (l : List (List α)) : List α := l.foldr (· ++ ·) []

/-- Concatenation of a list of strings in order. -/
def concatStr (l : List String) : String := l.foldl (· ++ ·) ""

/-- The timed actions of one async generator render task: starting from tick
`t0`, each yield takes its latency plus one tick (every `await it.next()`
suspends at least once) and produces an `update` on the tool sink; the
generator's return value finally produces the `done` call. -/
def agActs (sg : Nat) (t0 : Nat) : List (Nat × String) → Nat → String → List (Nat × Act)
  | [], retLat, ret => [(t0 + 1 + retLat, Act.toolDone sg ret)]
  | (lat, node) :: rest, retLat, ret =>
      (t0 + 1 + lat, Act.toolUpdate sg node) :: agActs sg (t0 + 1 + lat) rest retLat ret

/-- The timed sink actions a spawned render task performs asynchronously,
mirroring the promise and async-generator branches of `handleRender`: a
promise renderer seals the tool sink with `done` when it resolves (at least
one tick after spawning); an async generator produces its updates and final
`done` step by step; a failing renderer (throw or rejection) never resolves
its completion signal and performs no sink action at all; plain and
synchronous-generator renderers already acted during the spawning step. -/
def taskActs (tk : Task) : List (Nat × Act) :=
  match tk.rb with
  | .promiseLat lat node => [(tk.spawnTick + 1 + lat, Act.toolDone tk.seg node)]
  | .asyncGen yields retLat ret => agActs tk.seg tk.spawnTick yields retLat ret
  | _ => []

/-- One plus the largest tick occurring in a timed action list. -/
def timeBound (l : List (Nat × Act)) : Nat :=
  l.foldr (fun p m => max p.1 m) 0 + 1

/-- The actions observable at tick `t`: the main loop's synchronous actions of
that tick, followed by the asynchronous task actions settling at that tick. -/
def actsAt (main tsk : List (Nat × Act)) (t : Nat) : List Act :=
  (main.filter (fun p => p.1 == t)).map Prod.snd ++
    (tsk.filter (fun p => p.1 == t)).map Prod.snd

/-- The timed trace of the consumption loop's own (synchronous) actions. -/
def mainOf (tools : String → Option RBehavior) (es : List Event) : List (Nat × Act) :=
  (runStream tools es).trace

/-- The timed actions of all asynchronous render tasks of a run, in spawn
order. -/
def tskOf (tools : String → Option RBehavior) (es : List Event) : List (Nat × Act) :=
  catLists ((runStream tools es).tasks.map taskActs)

/-- The externally observable action sequence of a full run, with the
synchronous trace and all asynchronous renderer actions merged in time order
(ties between loop actions and promise settlements at the same tick are
resolved loop-first). -/
def timedTrace (tools : String → Option RBehavior) (es : List Event) : List Act :=
  catLists ((List.range (timeBound (mainOf tools es ++ tskOf tools es))).map
    (actsAt (mainOf tools es) (tskOf tools es)))

/-- Whether an action is part of a segment's closing (text sink sealing or
`onSegment` notification). -/
def Act.isClosing : Act → Bool
  | .textDone _ => true
  | .notify _ => true
  | _ => false

/-- Whether an action is an `onSegment` notification. -/
def Act.isNotify : Act → Bool
  | .notify _ => true
  | _ => false

/-- Whether an action mounts a segment on the overall display sink. -/
def Act.isMount : Act → Bool
  | .uiUpdate _ => true
  | .uiAppend _ => true
  | _ => false

/-- Whether an action is renderer output on a per-segment tool sink. -/
def Act.isRender : Act → Bool
  | .toolUpdate _ _ => true
  | .toolDone _ _ => true
  | _ => false

/-- Whether an action is an `error` call on the overall display sink. -/
def Act.isUiErr : Act → Bool
  | .uiError _ => true
  | _ => false

/-- Whether an action is the `done` call sealing segment `k`'s tool sink. -/
def Act.isDoneOf (k : Nat) : Act → Bool
  | .toolDone k' _ => k' == k
  | _ => false

/-- Segment `j` is observed as fully settled while segment `i` is still
pending: some prefix of the trace contains `j`'s tool sink `done` call but no
`done` call of `i`'s tool sink. -/
def settledBefore (tr : List Act) (j i : Nat) : Prop :=
  ∃ p q, tr = p ++ q ∧ p.any (Act.isDoneOf j) = true ∧ p.any (Act.isDoneOf i) = false

/-- Well-formed upstream event sequences: `finish` is terminal, so it can only
occur as the last event. -/
def WF (es : List Event) : Prop := ∀ e ∈ es.dropLast, e ≠ Event.finish

/-- The canonical closing-action sequence for the first `c` segments of a
segment list: for each closed segment, its closing block in order. -/
def closingActsOf (sgs : List Seg) (c : Nat) : List Act :=
  catLists ((List.range c).map (fun k =>
    match sgs[k]? with
    | some sg => closingBlock k sg.kind
    | none => []))

/-- The closing actions (text sink sealings and `onSegment` notifications)
of an action sequence, in order. -/
def closingOf (l : List Act) : List Act := l.filter Act.isClosing

/-- The canonical mount sequence for `n` segments on the overall display
sink: the first segment replaces the placeholder via `update`, every later
one is appended. -/
def mountCanon (n : Nat) : List Act :=
  (List.range n).map (fun k => if k = 0 then Act.uiUpdate 0 else Act.uiAppend k)

/-- The closing bookkeeping of a pipeline state, relative to a count `c` of
closed segments: the trace's closing actions are exactly the canonical
closing blocks of the first `c` segments, a segment is marked notified
exactly when it is among the first `c`, and a text segment's sink is sealed
exactly when it is among the first `c`. -/
def ClosingState (s : St) (c : Nat) : Prop :=
  closingOf s.acts = closingActsOf s.segments c ∧
  ∀ k sg, s.segments[k]? = some sg →
    ((sg.notified = true ↔ k < c) ∧
      (sg.kind = SegKind.text → (sg.sinkDone = true ↔ k < c)))

/-- The invariant holding between event-processing steps before `finish` has
been processed: every segment except the latest is closed, the latest is
still awaiting its closing. -/
def OpenInv (s : St) : Prop := ClosingState s (s.segments.length - 1)

/-- Every text segment's accumulator equals the concatenation of the deltas
fed into it, in arrival order. -/
def TextInv (s : St) : Prop :=
  ∀ sg ∈ s.segments, sg.kind = SegKind.text → sg.text = concatStr sg.deltas

/-- The display-sink mount bookkeeping: the trace's mount actions are the
canonical mount sequence of the segment count, and `initialRemoved` has been
written exactly when some segment has been mounted. -/
def MountInv (s : St) : Prop :=
  s.acts.filter Act.isMount = mountCanon s.segments.length ∧
  s.initialRemoved = decide (0 < s.segments.length)

/-! ### Concrete fixtures used by counterexamples and witnesses -/

/-- A tool table with no tools at all. -/
def tools0 : String → Option RBehavior := fun _ => none

/-- Two tools whose renderers return promises: tool "a" resolves to node "ra"
after `la` ticks, tool "b" resolves to node "rb" after `lb` ticks. -/
def tools2 (la lb : Nat) : String → Option RBehavior := fun nm =>
  if nm = "a" then some (RBehavior.promiseLat la "ra")
  else if nm = "b" then some (RBehavior.promiseLat lb "rb")
  else none

/-- Tool "a" has a failing renderer (throws or rejects); tool "b" resolves to
node "rb" after `lb` ticks. -/
def toolsF (lb : Nat) : String → Option RBehavior := fun nm =>
  if nm = "a" then some RBehavior.fails
  else if nm = "b" then some (RBehavior.promiseLat lb "rb")
  else none

/-- Two tool calls followed by finish (the shape of spec Scenario C). -/
def esAB : List Event := [Event.toolCall "1" "a" "x", Event.toolCall "2" "b" "y", Event.finish]

/-- A text delta, then an error, then finish (the shape of spec Scenario D). -/
def scenD : List Event := [Event.textDelta "ok", Event.error "E", Event.finish]

/-- A text segment followed by a tool call, then finish (the shape of spec
Scenario B). -/
def scenB : List Event :=
  [Event.textDelta "Let me check", Event.toolCall "1" "lookup" "q", Event.finish]

/-- An event sequence that is exhausted without ever emitting `finish`. -/
def esNoFin : List Event := [Event.textDelta "a", Event.toolCall "1" "lookup" "q"]

/-- A single tool whose renderer is a promise resolving after three ticks. -/
def toolsP : String → Option RBehavior := fun nm =>
  if nm = "a" then some (RBehavior.promiseLat 3 "ra") else none

/-- A single tool call, then finish. -/
def esP : List Event := [Event.toolCall "1" "a" "x", Event.finish]

end StreamMulti

namespace StreamMulti

/-! ### Basic helper lemmas -/

theorem getLast?_decomp {α : Type} {l : List α} {a : α} (h : l.getLast? = some a) :
    ∃ l', l = l' ++ [a] := by
  rcases l.eq_nil_or_concat with rfl | ⟨L, b, rfl⟩
  · simp at h
  · rw [List.concat_eq_append, List.getLast?_concat] at h
    exact ⟨L, by simp [List.concat_eq_append, Option.some_inj.mp h]⟩

theorem catLists_append {α : Type} (a b : List (List α)) :
    catLists (a ++ b) = catLists a ++ catLists b := by
  induction a with
  | nil => rfl
  | cons x xs ih => simp [catLists, List.foldr_append] at *; simp [ih]

theorem catLists_cons {α : Type} (x : List α) (l : List (List α)) :
    catLists (x :: l) = x ++ catLists l := rfl

theorem mem_catLists {α : Type} {x : α} {L : List (List α)} :
    x ∈ catLists L ↔ ∃ l ∈ L, x ∈ l := by
  induction L with
  | nil => simp [catLists]
  | cons y ys ih => simp [catLists_cons, List.mem_append, ih]

theorem concatStr_snoc (l : List String) (x : String) :
    concatStr (l ++ [x]) = concatStr l ++ x := by
  simp [concatStr, List.foldl_append]

theorem empty_append_str (s : String) : "" ++ s = s := by
  cases s
  rfl

theorem concatStr_singleton (x : String) : concatStr [x] = x := by
  show "" ++ x = x
  exact empty_append_str x

/-! ### Effect lemmas for the demultiplexer operations -/

theorem markLast_nil (t : Nat) {s : St} (h : s.segments = []) :
    markLastSegmentDone t s = s := by
  simp [markLastSegmentDone, h]

theorem markLast_concat (t : Nat) {s : St} {S' : List Seg} {last : Seg}
    (h : s.segments = S' ++ [last]) :
    markLastSegmentDone t s =
      { s with
        segments := S' ++ [closeSeg last],
        trace := s.trace ++ (closingBlock S'.length last.kind).map (fun a => (t, a)) } := by
  simp [markLastSegmentDone, h, List.getLast?_concat, List.dropLast_concat]

theorem streamText_extend (t : Nat) (d : String) {s : St} {S' : List Seg} {last : Seg}
    (h : s.segments = S' ++ [last]) (hk : last.kind = SegKind.text) :
    streamTextSegment t d s =
      { s with
        segments := S' ++ [extendSeg d last],
        trace := s.trace ++ [(t, Act.textAppend S'.length d)] } := by
  simp [streamTextSegment, h, List.getLast?_concat, hk, List.dropLast_concat]

theorem streamText_new_nil (t : Nat) (d : String) {s : St} (h : s.segments = []) :
    streamTextSegment t d s = addSegment t (seedSeg d) (appendUI t 0 s) := by
  simp [streamTextSegment, h]

theorem streamText_new_tool (t : Nat) (d : String) {s : St} {S' : List Seg} {last : Seg}
    (h : s.segments = S' ++ [last]) (hk : last.kind = SegKind.tool) :
    streamTextSegment t d s =
      addSegment t (seedSeg d) (appendUI t s.segments.length s) := by
  simp [streamTextSegment, h, List.getLast?_concat, hk]

@[simp] theorem closeSeg_kind (sg : Seg) : (closeSeg sg).kind = sg.kind := by
  unfold closeSeg; split <;> rfl

@[simp] theorem closeSeg_text (sg : Seg) : (closeSeg sg).text = sg.text := by
  unfold closeSeg; split <;> rfl

@[simp] theorem closeSeg_deltas (sg : Seg) : (closeSeg sg).deltas = sg.deltas := by
  unfold closeSeg; split <;> rfl

@[simp] theorem closeSeg_toolCallId (sg : Seg) : (closeSeg sg).toolCallId = sg.toolCallId := by
  unfold closeSeg; split <;> rfl

@[simp] theorem closeSeg_toolName (sg : Seg) : (closeSeg sg).toolName = sg.toolName := by
  unfold closeSeg; split <;> rfl

@[simp] theorem closeSeg_args (sg : Seg) : (closeSeg sg).args = sg.args := by
  unfold closeSeg; split <;> rfl

@[simp] theorem closeSeg_notified (sg : Seg) : (closeSeg sg).notified = true := by
  unfold closeSeg; split <;> rfl

theorem closeSeg_sinkDone_text {sg : Seg} (hk : sg.kind = SegKind.text) :
    (closeSeg sg).sinkDone = true := by
  unfold closeSeg; simp [hk]

theorem closeSeg_sinkDone_tool {sg : Seg} (hk : sg.kind = SegKind.tool) :
    (closeSeg sg).sinkDone = sg.sinkDone := by
  unfold closeSeg; simp [hk]

@[simp] theorem emit_segments (t : Nat) (a : Act) (s : St) :
    (emit t a s).segments = s.segments := rfl

@[simp] theorem emits_segments (t : Nat) (l : List Act) (s : St) :
    (emits t l s).segments = s.segments := rfl

@[simp] theorem appendUI_segments (t k : Nat) (s : St) :
    (appendUI t k s).segments = s.segments := by
  unfold appendUI emit; split <;> rfl

@[simp] theorem emit_acts (t : Nat) (a : Act) (s : St) :
    (emit t a s).acts = s.acts ++ [a] := by
  simp [emit, St.acts]

@[simp] theorem emits_acts (t : Nat) (l : List Act) (s : St) :
    (emits t l s).acts = s.acts ++ l := by
  simp [emits, St.acts, Function.comp]

/-! ### The text-accumulator invariant (claim C6) -/

theorem textInv_of_segments_eq {s s' : St} (h : s'.segments = s.segments)
    (hs : TextInv s) : TextInv s' := by
  intro sg hsg hk
  exact hs sg (h ▸ hsg) hk

theorem textInv_markLast (t : Nat) {s : St} (hs : TextInv s) :
    TextInv (markLastSegmentDone t s) := by
  rcases s.segments.eq_nil_or_concat with h | ⟨S', last, h⟩
  · rw [markLast_nil t h]; exact hs
  · rw [List.concat_eq_append] at h
    rw [markLast_concat t h]
    intro sg hsg hk
    rcases List.mem_append.mp hsg with h1 | h2
    · exact hs sg (h ▸ List.mem_append_left _ h1) hk
    · have hx : sg = closeSeg last := by simpa using h2
      subst hx
      have := hs last (h ▸ List.mem_append_right _ (by simp)) (by simpa using hk)
      simpa using this

theorem textInv_addSegment (t : Nat) {s : St} (hs : TextInv s) {sg : Seg}
    (hsg : sg.kind = SegKind.text → sg.text = concatStr sg.deltas) :
    TextInv (addSegment t sg s) := by
  intro x hx hk
  rcases List.mem_append.mp hx with h1 | h2
  · exact textInv_markLast t hs x h1 hk
  · have hx2 : x = sg := by simpa using h2
    subst hx2
    exact hsg hk

theorem textInv_step (tools : String → Option RBehavior) (t : Nat) (e : Event)
    {s : St} (hs : TextInv s) : TextInv (step tools t s e) := by
  unfold step
  by_cases he : s.errored.isSome
  · simpa [he] using hs
  · simp only [he, if_false, Bool.false_eq_true]
    cases e with
    | textDelta d =>
        show TextInv (streamTextSegment t d s)
        rcases s.segments.eq_nil_or_concat with h | ⟨S', last, h⟩
        · rw [streamText_new_nil t d h]
          exact textInv_addSegment t (textInv_of_segments_eq (by simp) hs)
            (by intro _; simp [seedSeg, concatStr_singleton])
        · rw [List.concat_eq_append] at h
          cases hk : last.kind
          · rw [streamText_extend t d h hk]
            intro x hx hkx
            rcases List.mem_append.mp hx with h1 | h2
            · exact hs x (h ▸ List.mem_append_left _ h1) hkx
            · have hx2 : x = extendSeg d last := by simpa using h2
              subst hx2
              have hlast := hs last (h ▸ List.mem_append_right _ (by simp)) hk
              simp [extendSeg, concatStr_snoc, hlast]
          · rw [streamText_new_tool t d h hk]
            exact textInv_addSegment t (textInv_of_segments_eq (by simp) hs)
              (by intro _; simp [seedSeg, concatStr_singleton])
    | toolCallDelta => exact hs
    | toolCall id name args =>
        show TextInv (streamToolSegment tools t id name args s)
        unfold streamToolSegment
        cases htl : tools name <;>
          exact textInv_addSegment t (textInv_of_segments_eq (by simp) hs)
            (by intro hcontra; simp [toolSeg] at hcontra)
    | error c => exact textInv_of_segments_eq rfl hs
    | finish => exact textInv_markLast t hs

theorem textInv_stepsAux (tools : String → Option RBehavior) :
    ∀ (es : List Event) (i : Nat) (s : St), TextInv s → TextInv (stepsAux tools i s es)
  | [], _, _, hs => hs
  | e :: es, i, s, hs =>
      textInv_stepsAux tools es (i + 1) (step tools i s e) (textInv_step tools i e hs)

theorem runStream_segments (tools : String → Option RBehavior) (es : List Event) :
    (runStream tools es).segments = (runSteps tools es).segments := by
  unfold runStream
  by_cases h : (runSteps tools es).errored.isSome <;> simp [h]

/-! ### Claim C6 -/

/-- C6: in every run, every text segment's final accumulated `text` equals
the concatenation, in arrival order, of the `textDelta` strings that were fed
into it while it was open (the seed it was created with and every delta
appended by `streamTextSegment`). -/
theorem textSegment_text_eq_concat_deltas (tools : String → Option RBehavior)
    (es : List Event) {sg : Seg} (h1 : sg ∈ (runStream tools es).segments)
    (h2 : sg.kind = SegKind.text) : sg.text = concatStr sg.deltas := by
  have : TextInv (runSteps tools es) :=
    textInv_stepsAux tools es 0 {} (by intro x hx _; simp at hx)
  exact this sg (by rwa [runStream_segments] at h1) h2

/-- C6 witness: on Scenario A's events the single text segment accumulates
"Hi there", which is the concatenation of its recorded deltas. -/
theorem textSegment_text_eq_concat_deltas_witness :
    ((⟨SegKind.text, ["Hi ", "there"], "Hi there", "", "", "", true, true⟩ : Seg) ∈
        (runStream tools0 [Event.textDelta "Hi ", Event.textDelta "there", Event.finish]).segments ∧
      (⟨SegKind.text, ["Hi ", "there"], "Hi there", "", "", "", true, true⟩ : Seg).kind = SegKind.text) ∧
    (⟨SegKind.text, ["Hi ", "there"], "Hi there", "", "", "", true, true⟩ : Seg).text =
      concatStr (⟨SegKind.text, ["Hi ", "there"], "Hi there", "", "", "", true, true⟩ : Seg).deltas :=
  ⟨⟨by decide, by decide⟩,
    textSegment_text_eq_concat_deltas tools0
      [Event.textDelta "Hi ", Event.textDelta "there", Event.finish] (by decide) (by decide)⟩

/-! ### Summary lemmas for the effects of each operation -/

theorem markLast_acts (t : Nat) (s : St) :
    ∃ cl, (markLastSegmentDone t s).acts = s.acts ++ cl ∧ ∀ a ∈ cl, a.isClosing = true := by
  rcases s.segments.eq_nil_or_concat with h | ⟨S', last, h⟩
  · rw [markLast_nil t h]; exact ⟨[], by simp⟩
  · rw [List.concat_eq_append] at h
    rw [markLast_concat t h]
    refine ⟨closingBlock S'.length last.kind, ?_, ?_⟩
    · simp [St.acts, Function.comp]
    · intro a ha
      unfold closingBlock at ha
      rcases List.mem_append.mp ha with h1 | h2
      · split at h1 <;> simp at h1
        simp [h1, Act.isClosing]
      · simp at h2; simp [h2, Act.isClosing]

theorem markLast_length (t : Nat) (s : St) :
    (markLastSegmentDone t s).segments.length = s.segments.length := by
  rcases s.segments.eq_nil_or_concat with h | ⟨S', last, h⟩
  · rw [markLast_nil t h]
  · rw [List.concat_eq_append] at h
    rw [markLast_concat t h, h]
    simp

theorem markLast_initialRemoved (t : Nat) (s : St) :
    (markLastSegmentDone t s).initialRemoved = s.initialRemoved := by
  rcases s.segments.eq_nil_or_concat with h | ⟨S', last, h⟩
  · rw [markLast_nil t h]
  · rw [List.concat_eq_append] at h; rw [markLast_concat t h]

theorem markLast_errored (t : Nat) (s : St) :
    (markLastSegmentDone t s).errored = s.errored := by
  rcases s.segments.eq_nil_or_concat with h | ⟨S', last, h⟩
  · rw [markLast_nil t h]
  · rw [List.concat_eq_append] at h; rw [markLast_concat t h]

theorem markLast_tasks (t : Nat) (s : St) :
    (markLastSegmentDone t s).tasks = s.tasks := by
  rcases s.segments.eq_nil_or_concat with h | ⟨S', last, h⟩
  · rw [markLast_nil t h]
  · rw [List.concat_eq_append] at h; rw [markLast_concat t h]

theorem addSegment_acts (t : Nat) (sg : Seg) (s : St) :
    ∃ cl, (addSegment t sg s).acts = s.acts ++ cl ∧ ∀ a ∈ cl, a.isClosing = true := by
  rcases markLast_acts t s with ⟨cl, hacts, hcl⟩
  refine ⟨cl, ?_, hcl⟩
  have h2 : (addSegment t sg s).acts = (markLastSegmentDone t s).acts := by
    simp [addSegment, St.acts]
  rw [h2, hacts]

theorem addSegment_length (t : Nat) (sg : Seg) (s : St) :
    (addSegment t sg s).segments.length = s.segments.length + 1 := by
  simp [addSegment, markLast_length]

theorem addSegment_initialRemoved (t : Nat) (sg : Seg) (s : St) :
    (addSegment t sg s).initialRemoved = s.initialRemoved := by
  simp [addSegment, markLast_initialRemoved]

theorem addSegment_errored (t : Nat) (sg : Seg) (s : St) :
    (addSegment t sg s).errored = s.errored := by
  simp [addSegment, markLast_errored]

theorem addSegment_tasks (t : Nat) (sg : Seg) (s : St) :
    (addSegment t sg s).tasks = s.tasks := by
  simp [addSegment, markLast_tasks]

theorem isMount_false_of_isClosing {a : Act} (h : a.isClosing = true) :
    a.isMount = false := by
  cases a <;> simp_all [Act.isClosing, Act.isMount]

theorem renderInline_not_mount (k : Nat) (rb : RBehavior) :
    ∀ a ∈ renderInline k rb, a.isMount = false := by
  intro a ha
  cases rb <;> simp [renderInline] at ha
  case plain node => simp [ha, Act.isMount]
  case syncGen yields ret =>
      rcases ha with ⟨x, _, hx⟩ | h2
      · simp [← hx, Act.isMount]
      · simp [h2, Act.isMount]

/-! ### The mount invariant (claim C7) -/

theorem mountCanon_succ (n : Nat) :
    mountCanon (n + 1) = mountCanon n ++ [if n = 0 then Act.uiUpdate 0 else Act.uiAppend n] := by
  simp [mountCanon, List.range_succ]

theorem mountInv_markLast (t : Nat) {s : St} (hs : MountInv s) :
    MountInv (markLastSegmentDone t s) := by
  rcases markLast_acts t s with ⟨cl, hacts, hcl⟩
  constructor
  · rw [hacts, List.filter_append, hs.1, markLast_length]
    have : cl.filter Act.isMount = [] :=
      List.filter_eq_nil_iff.mpr (fun a ha => by simp [isMount_false_of_isClosing (hcl a ha)])
    simp [this]
  · rw [markLast_initialRemoved, markLast_length]
    exact hs.2

@[simp] theorem emits_nil (t : Nat) (s : St) : emits t [] s = s := by
  simp [emits]

theorem emits_singleton (t : Nat) (a : Act) (s : St) : emits t [a] s = emit t a s := rfl

theorem markLast_tasksSet (t : Nat) (s : St) (X : List Task) :
    markLastSegmentDone t { s with tasks := X } = { markLastSegmentDone t s with tasks := X } := by
  rcases s.segments.eq_nil_or_concat with h | ⟨S', last, h⟩
  · rw [markLast_nil t h, markLast_nil t (show ({ s with tasks := X } : St).segments = [] from h)]
  · rw [List.concat_eq_append] at h
    rw [markLast_concat t h,
      markLast_concat t (show ({ s with tasks := X } : St).segments = S' ++ [last] from h)]

theorem addSegment_tasksSet (t : Nat) (sg : Seg) (s : St) (X : List Task) :
    addSegment t sg { s with tasks := X } = { addSegment t sg s with tasks := X } := by
  unfold addSegment
  rw [markLast_tasksSet]

theorem mountInv_congr {s s' : St} (h1 : s'.acts = s.acts)
    (h2 : s'.segments.length = s.segments.length)
    (h3 : s'.initialRemoved = s.initialRemoved) (hs : MountInv s) : MountInv s' := by
  constructor
  · rw [h1, h2]; exact hs.1
  · rw [h3, h2]; exact hs.2

theorem mountInv_flag_pos {s : St} (hs : MountInv s) (h0 : s.initialRemoved = true) :
    0 < s.segments.length := by
  have h2 := hs.2
  rw [h0] at h2
  simpa using h2.symm

theorem mountInv_flag_neg {s : St} (hs : MountInv s) (h0 : s.initialRemoved = false) :
    s.segments.length = 0 := by
  have h2 := hs.2
  rw [h0] at h2
  have h3 := of_decide_eq_false h2.symm
  omega

theorem appendUI_acts_mount {s : St} (hs : MountInv s) (t : Nat) :
    (appendUI t s.segments.length s).acts =
      s.acts ++ [if s.segments.length = 0 then Act.uiUpdate 0 else Act.uiAppend s.segments.length] := by
  unfold appendUI
  by_cases h0 : s.initialRemoved
  · have hn := mountInv_flag_pos hs h0
    simp [h0, emit, St.acts, Nat.pos_iff_ne_zero.mp hn]
  · have hn := mountInv_flag_neg hs (by simpa using h0)
    simp [h0, emit, St.acts, hn]

theorem appendUI_flag (t k : Nat) (s : St) : (appendUI t k s).initialRemoved = true ∨
    ((appendUI t k s).initialRemoved = s.initialRemoved ∧ s.initialRemoved = true) := by
  unfold appendUI
  by_cases h0 : s.initialRemoved <;> simp [h0, emit]

theorem mountInv_newSegment (t : Nat) (sg : Seg) (extra : List Act)
    (hextra : ∀ a ∈ extra, a.isMount = false) {s : St} (hs : MountInv s) :
    MountInv (addSegment t sg (emits t extra (appendUI t s.segments.length s))) := by
  rcases addSegment_acts t sg (emits t extra (appendUI t s.segments.length s)) with ⟨cl, hacts, hcl⟩
  have hclm : cl.filter Act.isMount = [] :=
    List.filter_eq_nil_iff.mpr (fun a ha => by simp [isMount_false_of_isClosing (hcl a ha)])
  have hexm : extra.filter Act.isMount = [] :=
    List.filter_eq_nil_iff.mpr (fun a ha => by simp [hextra a ha])
  have hlen : (addSegment t sg (emits t extra (appendUI t s.segments.length s))).segments.length
      = s.segments.length + 1 := by
    rw [addSegment_length]; simp
  have hflag : (addSegment t sg (emits t extra (appendUI t s.segments.length s))).initialRemoved
      = true := by
    rw [addSegment_initialRemoved]
    show (appendUI t s.segments.length s).initialRemoved = true
    unfold appendUI
    by_cases h0 : s.initialRemoved <;> simp [h0, emit]
  constructor
  · rw [hacts, emits_acts, appendUI_acts_mount hs t, hlen, mountCanon_succ]
    rw [List.filter_append, List.filter_append, List.filter_append, hs.1, hclm, hexm]
    by_cases hn : s.segments.length = 0 <;> simp [hn, Act.isMount]
  · rw [hlen, hflag]
    simp

theorem mountInv_step (tools : String → Option RBehavior) (t : Nat) (e : Event)
    {s : St} (hs : MountInv s) : MountInv (step tools t s e) := by
  unfold step
  by_cases he : s.errored.isSome
  · simpa [he] using hs
  · simp only [he, if_false, Bool.false_eq_true]
    cases e with
    | textDelta d =>
        show MountInv (streamTextSegment t d s)
        rcases s.segments.eq_nil_or_concat with h | ⟨S', last, h⟩
        · rw [streamText_new_nil t d h]
          have hh := mountInv_newSegment t (seedSeg d) [] (by simp) hs
          rw [emits_nil] at hh
          simpa [h] using hh
        · rw [List.concat_eq_append] at h
          cases hk : last.kind
          · rw [streamText_extend t d h hk]
            constructor
            · have hcl : (Act.textAppend S'.length d).isMount = false := rfl
              have h1 := hs.1
              simp only [St.acts] at h1 ⊢
              simp only [List.map_append, List.filter_append, h1]
              simp [hcl, h, Act.isMount]
            · have h2 := hs.2
              simp only [h] at h2
              simpa [h] using h2
          · rw [streamText_new_tool t d h hk]
            have hh := mountInv_newSegment t (seedSeg d) [] (by simp) hs
            rw [emits_nil] at hh
            exact hh
    | toolCallDelta => exact hs
    | toolCall id name args =>
        show MountInv (streamToolSegment tools t id name args s)
        unfold streamToolSegment
        cases htl : tools name
        · have hh := mountInv_newSegment t (toolSeg id name args)
            [Act.toolDone s.segments.length "Tool not found"] (by simp [Act.isMount]) hs
          rw [emits_singleton] at hh
          exact hh
        · rename_i rb
          rw [addSegment_tasksSet]
          exact mountInv_congr (by simp [St.acts]) (by simp) (by simp)
            (mountInv_newSegment t (toolSeg id name args)
              (renderInline s.segments.length rb) (renderInline_not_mount _ rb) hs)
    | error c =>
        constructor
        · have h1 := hs.1
          simp only [St.acts] at h1 ⊢
          simp only [emit, List.map_append, List.filter_append, h1]
          simp [Act.isMount]
        · simpa [emit] using hs.2
    | finish => exact mountInv_markLast t hs

theorem mountInv_stepsAux (tools : String → Option RBehavior) :
    ∀ (es : List Event) (i : Nat) (s : St), MountInv s → MountInv (stepsAux tools i s es)
  | [], _, _, hs => hs
  | e :: es, i, s, hs =>
      mountInv_stepsAux tools es (i + 1) (step tools i s e) (mountInv_step tools i e hs)

theorem mountInv_runStream (tools : String → Option RBehavior) (es : List Event) :
    MountInv (runStream tools es) := by
  have hsteps : MountInv (runSteps tools es) :=
    mountInv_stepsAux tools es 0 {} ⟨rfl, rfl⟩
  unfold runStream
  by_cases h : (runSteps tools es).errored.isSome
  · simpa [h] using hsteps
  · simp only [h, if_false, Bool.false_eq_true]
    constructor
    · have h1 := hsteps.1
      simp only [emit_acts, List.filter_append, h1]
      simp [Act.isMount, emit]
    · simpa [emit] using hsteps.2

/-! ### Claim C7 -/

/-- C7: in every run, the mount actions on the overall display sink form the
canonical sequence: the very first segment is mounted with `ui.update`
(replacing the supplied placeholder) exactly once, and every subsequent
segment is mounted with `ui.append`, never replacing earlier output; the
`initialRemoved` replace-vs-append flag ends up written exactly when at least
one segment was mounted (it is flipped by the single `update` mount and never
written again). -/
theorem first_mount_update_rest_append (tools : String → Option RBehavior)
    (es : List Event) :
    (runStream tools es).acts.filter Act.isMount =
      mountCanon (runStream tools es).segments.length ∧
    (runStream tools es).initialRemoved =
      decide (0 < (runStream tools es).segments.length) :=
  mountInv_runStream tools es

/-! ### The closing-order invariant (claims C2, C4, C5, C10) -/

theorem getElem?_concat_cases {α : Type} {l : List α} {x : α} {k : Nat} {y : α}
    (h : (l ++ [x])[k]? = some y) :
    (k < l.length ∧ l[k]? = some y) ∨ (k = l.length ∧ y = x) := by
  by_cases hk : k < l.length
  · left
    refine ⟨hk, ?_⟩
    rwa [List.getElem?_append, if_pos hk] at h
  · right
    rw [List.getElem?_append_right (by omega)] at h
    have hk2 : k - l.length = 0 := by
      by_contra hne
      rcases Nat.exists_eq_succ_of_ne_zero hne with ⟨j, hj⟩
      rw [hj] at h
      simp at h
    rw [hk2] at h
    simp at h
    exact ⟨by omega, h.symm⟩

theorem getElem?_append_left_of_lt {α : Type} {l : List α} (l' : List α) {k : Nat}
    (hk : k < l.length) : (l ++ l')[k]? = l[k]? := by
  rw [List.getElem?_append, if_pos hk]

theorem closingActsOf_succ (sgs : List Seg) (c : Nat) :
    closingActsOf sgs (c + 1) = closingActsOf sgs c ++
      (match sgs[c]? with
       | some sg => closingBlock c sg.kind
       | none => []) := by
  simp only [closingActsOf, List.range_succ, List.map_append, catLists_append]
  simp [catLists]

theorem closingActsOf_congr {sgs sgs' : List Seg} (c : Nat)
    (h : ∀ k, k < c → sgs'[k]? = sgs[k]?) :
    closingActsOf sgs' c = closingActsOf sgs c := by
  induction c with
  | zero => rfl
  | succ n ih =>
      rw [closingActsOf_succ, closingActsOf_succ, ih (fun k hk => h k (by omega)),
        h n (by omega)]

theorem closingBlock_filter (k : Nat) (kd : SegKind) :
    (closingBlock k kd).filter Act.isClosing = closingBlock k kd := by
  cases kd <;> simp [closingBlock, Act.isClosing]

theorem closingState_ext {s s' : St} (c : Nat) (hseg : s'.segments = s.segments)
    (ex : List Act) (hacts : s'.acts = s.acts ++ ex)
    (hex : ∀ a ∈ ex, a.isClosing = false) (h : ClosingState s c) : ClosingState s' c := by
  constructor
  · have hfil : ex.filter Act.isClosing = [] :=
      List.filter_eq_nil_iff.mpr (fun a ha => by simp [hex a ha])
    unfold closingOf at *
    rw [hacts, List.filter_append, hfil, hseg]
    simpa using h.1
  · intro k sg hsg
    exact h.2 k sg (by rwa [hseg] at hsg)

theorem closingState_congr {s s' : St} (c : Nat) (h1 : s'.acts = s.acts)
    (h2 : s'.segments = s.segments) (h : ClosingState s c) : ClosingState s' c := by
  constructor
  · unfold closingOf
    rw [h1, h2]
    exact h.1
  · intro k sg hsg
    exact h.2 k sg (by rwa [h2] at hsg)

theorem markLast_concat_acts (t : Nat) {s : St} {S' : List Seg} {last : Seg}
    (h : s.segments = S' ++ [last]) :
    (markLastSegmentDone t s).acts = s.acts ++ closingBlock S'.length last.kind := by
  rw [markLast_concat t h]
  simp [St.acts]

theorem closingState_markLast (t : Nat) {s : St} (h : OpenInv s) :
    ClosingState (markLastSegmentDone t s) s.segments.length ∧
      (markLastSegmentDone t s).segments = s.segments.dropLast ++
        (match s.segments.getLast? with
         | some last => [closeSeg last]
         | none => []) := by
  rcases s.segments.eq_nil_or_concat with hnil | ⟨S', last, hc⟩
  · rw [markLast_nil t hnil]
    refine ⟨?_, by simp [hnil]⟩
    unfold OpenInv at h
    simpa [hnil] using h
  · rw [List.concat_eq_append] at hc
    have hacts := markLast_concat_acts t hc
    have hsegs : (markLastSegmentDone t s).segments = S' ++ [closeSeg last] := by
      rw [markLast_concat t hc]
    have hlen : s.segments.length = S'.length + 1 := by rw [hc]; simp
    have hcOld : closingOf s.acts = closingActsOf s.segments S'.length := by
      have h1 := h.1
      rwa [hlen, Nat.add_sub_cancel] at h1
    refine ⟨⟨?_, ?_⟩, ?_⟩
    · rw [hsegs]
      unfold closingOf at *
      rw [hacts, List.filter_append, closingBlock_filter, hcOld, hlen, closingActsOf_succ]
      have hsame : closingActsOf (S' ++ [closeSeg last]) S'.length =
          closingActsOf s.segments S'.length := by
        apply closingActsOf_congr
        intro k hk
        rw [hc, getElem?_append_left_of_lt _ hk, getElem?_append_left_of_lt _ hk]
      rw [hsame]
      have hget : (S' ++ [closeSeg last])[S'.length]? = some (closeSeg last) :=
        List.getElem?_concat_length _ _
      rw [hget]
      simp
    · intro k sg hsg
      rw [hsegs] at hsg
      rcases getElem?_concat_cases hsg with ⟨hk, hget⟩ | ⟨hk, hx⟩
      · have hold := h.2 k sg (by rw [hc, getElem?_append_left_of_lt _ hk]; exact hget)
        have hkc : (k < s.segments.length - 1) = True := by
          rw [hlen]; simp; omega
        have hkc2 : (k < s.segments.length) = True := by
          rw [hlen]; simp; omega
        rw [hkc] at hold
        rw [hkc2]
        simpa using hold
      · subst hx
        refine ⟨by simp [hk, hlen], fun ht => ?_⟩
        rw [closeSeg_sinkDone_text (by simpa using ht)]
        simp [hk, hlen]
    · rw [hsegs, hc, List.getLast?_concat, List.dropLast_concat]

theorem closingState_addSegment (t : Nat) {s : St} (h : OpenInv s) {sg : Seg}
    (hn : sg.notified = false) (hd : sg.sinkDone = false) :
    OpenInv (addSegment t sg s) := by
  rcases closingState_markLast t h with ⟨hcs, hseg⟩
  have hlen2 : (markLastSegmentDone t s).segments.length = s.segments.length :=
    markLast_length t s
  unfold OpenInv
  have hlen3 : (addSegment t sg s).segments.length = s.segments.length + 1 :=
    addSegment_length t sg s
  rw [hlen3, Nat.add_sub_cancel]
  constructor
  · show closingOf (addSegment t sg s).acts =
      closingActsOf ((markLastSegmentDone t s).segments ++ [sg]) s.segments.length
    have hacts : (addSegment t sg s).acts = (markLastSegmentDone t s).acts := by
      simp [addSegment, St.acts]
    rw [hacts]
    have hsame : closingActsOf ((markLastSegmentDone t s).segments ++ [sg]) s.segments.length =
        closingActsOf (markLastSegmentDone t s).segments s.segments.length := by
      apply closingActsOf_congr
      intro k hk
      exact getElem?_append_left_of_lt _ (by omega)
    rw [hsame]
    exact hcs.1
  · intro k x hx
    rcases getElem?_concat_cases hx with ⟨hk, hget⟩ | ⟨hk, hxeq⟩
    · exact hcs.2 k x hget
    · subst hxeq
      rw [hk, hlen2]
      constructor
      · simp [hn]
      · intro _
        simp [hd]

theorem renderInline_not_closing (k : Nat) (rb : RBehavior) :
    ∀ a ∈ renderInline k rb, a.isClosing = false := by
  intro a ha
  cases rb <;> simp [renderInline] at ha
  case plain node => simp [ha, Act.isClosing]
  case syncGen yields ret =>
      rcases ha with ⟨x, _, hx⟩ | h2
      · simp [← hx, Act.isClosing]
      · simp [h2, Act.isClosing]

theorem openInv_of_closingState {s' s : St} (h : ClosingState s' (s.segments.length - 1))
    (hseg : s'.segments = s.segments) : OpenInv s' := by
  unfold OpenInv
  rwa [hseg]

theorem openInv_appendUI (t k : Nat) {s : St} (hs : OpenInv s) :
    OpenInv (appendUI t k s) := by
  refine openInv_of_closingState ?_ (appendUI_segments t k s)
  unfold appendUI
  by_cases h0 : s.initialRemoved
  · rw [if_pos h0]
    exact closingState_ext _ (by simp [emit]) [Act.uiAppend k] (by simp [emit, St.acts])
      (by simp [Act.isClosing]) hs
  · rw [if_neg h0]
    exact closingState_ext _ (by simp [emit]) [Act.uiUpdate k] (by simp [emit, St.acts])
      (by simp [Act.isClosing]) hs

theorem closingState_updateLast {s : St} (hs : OpenInv s) {S' : List Seg}
    {last : Seg} (h : s.segments = S' ++ [last]) (last' : Seg)
    (hn : last'.notified = last.notified) (hd : last'.sinkDone = last.sinkDone)
    (hko : last'.kind = last.kind) (tex : List (Nat × Act))
    (hex : ∀ p ∈ tex, (Prod.snd p).isClosing = false) :
    OpenInv { s with segments := S' ++ [last'], trace := s.trace ++ tex } := by
  have hlen : s.segments.length = S'.length + 1 := by rw [h]; simp
  have hc : closingOf s.acts = closingActsOf s.segments S'.length := by
    have h1 := hs.1
    rwa [hlen, Nat.add_sub_cancel] at h1
  unfold OpenInv ClosingState
  constructor
  · show closingOf (List.map Prod.snd (s.trace ++ tex)) = _
    unfold closingOf at *
    rw [List.map_append, List.filter_append]
    have hfil : (tex.map Prod.snd).filter Act.isClosing = [] := by
      refine List.filter_eq_nil_iff.mpr ?_
      intro a ha
      rcases List.mem_map.mp ha with ⟨p, hp, hpa⟩
      simp [← hpa, hex p hp]
    rw [hfil, List.append_nil]
    show List.filter Act.isClosing s.acts = _
    rw [hc]
    have hlen2 : (S' ++ [last'] : List Seg).length - 1 = S'.length := by simp
    rw [hlen2]
    apply (closingActsOf_congr S'.length ?_).symm
    intro k hk
    rw [h, getElem?_append_left_of_lt _ hk, getElem?_append_left_of_lt _ hk]
  · intro k sg hsg
    have hlen2 : (S' ++ [last'] : List Seg).length - 1 = S'.length := by simp
    rw [hlen2]
    rcases getElem?_concat_cases hsg with ⟨hk, hget⟩ | ⟨hk, hxeq⟩
    · have hold := hs.2 k sg (by rw [h, getElem?_append_left_of_lt _ hk]; exact hget)
      rw [hlen, Nat.add_sub_cancel] at hold
      exact hold
    · subst hxeq
      have hold := hs.2 S'.length last (by rw [h]; exact List.getElem?_concat_length _ _)
      rw [hlen, Nat.add_sub_cancel] at hold
      subst hk
      constructor
      · rw [hn]
        exact hold.1
      · intro ht
        rw [hd]
        exact hold.2 (by rwa [hko] at ht)

theorem closingState_step (tools : String → Option RBehavior) (t : Nat) (e : Event)
    (hne : e ≠ Event.finish) {s : St} (hs : OpenInv s) : OpenInv (step tools t s e) := by
  unfold step
  by_cases he : s.errored.isSome
  · simpa [he] using hs
  · simp only [he, if_false, Bool.false_eq_true]
    cases e with
    | textDelta d =>
        show OpenInv (streamTextSegment t d s)
        rcases s.segments.eq_nil_or_concat with h | ⟨S', last, h⟩
        · rw [streamText_new_nil t d h]
          exact closingState_addSegment t (openInv_appendUI t 0 hs)
            (by simp [seedSeg]) (by simp [seedSeg])
        · rw [List.concat_eq_append] at h
          cases hk : last.kind
          · rw [streamText_extend t d h hk]
            exact closingState_updateLast hs h (extendSeg d last) rfl rfl rfl
              [(t, Act.textAppend S'.length d)] (by simp [Act.isClosing])
          · rw [streamText_new_tool t d h hk]
            exact closingState_addSegment t (openInv_appendUI t s.segments.length hs)
              (by simp [seedSeg]) (by simp [seedSeg])
    | toolCallDelta => exact hs
    | toolCall id name args =>
        show OpenInv (streamToolSegment tools t id name args s)
        unfold streamToolSegment
        have hUI := openInv_appendUI t s.segments.length hs
        cases htl : tools name
        · have hUI2 : OpenInv
              (emit t (Act.toolDone s.segments.length "Tool not found")
                (appendUI t s.segments.length s)) :=
            openInv_of_closingState
              (closingState_ext _ (by simp [emit])
                [Act.toolDone s.segments.length "Tool not found"]
                (by simp [emit, St.acts]) (by simp [Act.isClosing]) hUI)
              (by simp [emit])
          exact closingState_addSegment t hUI2 (by simp [toolSeg]) (by simp [toolSeg])
        · rename_i rb
          rw [addSegment_tasksSet]
          have hUI2 : OpenInv
              (emits t (renderInline s.segments.length rb) (appendUI t s.segments.length s)) :=
            openInv_of_closingState
              (closingState_ext _ (by simp)
                (renderInline s.segments.length rb)
                (by simp [St.acts, emits]) (renderInline_not_closing _ rb) hUI)
              (by simp)
          exact closingState_addSegment t hUI2 (by simp [toolSeg]) (by simp [toolSeg])
    | error c =>
        exact openInv_of_closingState
          (closingState_ext _ (by simp [emit]) [Act.uiError c]
            (by simp [emit, St.acts]) (by simp [Act.isClosing]) hs)
          (by simp [emit])
    | finish => exact absurd rfl hne

/-! ### Running over event lists -/

@[simp] theorem emit_errored (t : Nat) (a : Act) (s : St) :
    (emit t a s).errored = s.errored := rfl

@[simp] theorem emits_errored (t : Nat) (l : List Act) (s : St) :
    (emits t l s).errored = s.errored := rfl

@[simp] theorem appendUI_errored (t k : Nat) (s : St) :
    (appendUI t k s).errored = s.errored := by
  unfold appendUI; split <;> rfl

theorem streamTextSegment_errored (t : Nat) (d : String) (s : St) :
    (streamTextSegment t d s).errored = s.errored := by
  rcases s.segments.eq_nil_or_concat with h | ⟨S', last, h⟩
  · rw [streamText_new_nil t d h, addSegment_errored]
    simp
  · rw [List.concat_eq_append] at h
    cases hk : last.kind
    · rw [streamText_extend t d h hk]
    · rw [streamText_new_tool t d h hk, addSegment_errored]
      simp

theorem streamToolSegment_errored (tools : String → Option RBehavior) (t : Nat)
    (id name args : String) (s : St) :
    (streamToolSegment tools t id name args s).errored = s.errored := by
  unfold streamToolSegment
  cases htl : tools name
  · simp [addSegment_errored]
  · rw [addSegment_tasksSet]
    show (addSegment t (toolSeg id name args)
      (emits t (renderInline s.segments.length _) (appendUI t s.segments.length s))).errored = _
    rw [addSegment_errored]
    simp

theorem step_errored_of_not_err (tools : String → Option RBehavior) (t : Nat)
    {e : Event} (he : e.isErr = false) (s : St) :
    (step tools t s e).errored = s.errored := by
  unfold step
  by_cases hs : s.errored.isSome
  · simp [hs]
  · simp only [hs, if_false, Bool.false_eq_true]
    cases e with
    | textDelta d => exact streamTextSegment_errored t d s
    | toolCallDelta => rfl
    | toolCall id name args => exact streamToolSegment_errored tools t id name args s
    | error c => simp [Event.isErr] at he
    | finish => exact markLast_errored t s

theorem step_frozen (tools : String → Option RBehavior) (t : Nat) (e : Event)
    {s : St} (h : s.errored.isSome) : step tools t s e = s := by
  simp [step, h]

theorem stepsAux_frozen (tools : String → Option RBehavior) :
    ∀ (es : List Event) (i : Nat) (s : St), s.errored.isSome → stepsAux tools i s es = s
  | [], _, _, _ => rfl
  | e :: es, i, s, h => by
      show stepsAux tools (i + 1) (step tools i s e) es = s
      rw [step_frozen tools i e h]
      exact stepsAux_frozen tools es (i + 1) s h

theorem stepsAux_errored_none (tools : String → Option RBehavior) :
    ∀ (es : List Event) (i : Nat) (s : St), (∀ e ∈ es, e.isErr = false) →
      s.errored = none → (stepsAux tools i s es).errored = none
  | [], _, _, _, hs => hs
  | e :: es, i, s, h, hs => by
      show (stepsAux tools (i + 1) (step tools i s e) es).errored = none
      refine stepsAux_errored_none tools es (i + 1) _ (fun x hx => h x (by simp [hx])) ?_
      rw [step_errored_of_not_err tools i (h e (by simp)) s]
      exact hs

theorem stepsAux_append (tools : String → Option RBehavior) :
    ∀ (l l' : List Event) (i : Nat) (s : St),
      stepsAux tools i s (l ++ l') = stepsAux tools (i + l.length) (stepsAux tools i s l) l'
  | [], l', i, s => by simp [stepsAux]
  | e :: l, l', i, s => by
      show stepsAux tools (i + 1) (step tools i s e) (l ++ l') = _
      rw [stepsAux_append tools l l' (i + 1) (step tools i s e)]
      have : i + 1 + l.length = i + (e :: l).length := by simp; omega
      rw [this]
      rfl

theorem openInv_stepsAux (tools : String → Option RBehavior) :
    ∀ (es : List Event) (i : Nat) (s : St), (∀ e ∈ es, e ≠ Event.finish) →
      OpenInv s → OpenInv (stepsAux tools i s es)
  | [], _, _, _, hs => hs
  | e :: es, i, s, h, hs =>
      openInv_stepsAux tools es (i + 1) (step tools i s e)
        (fun x hx => h x (by simp [hx]))
        (closingState_step tools i e (h e (by simp)) hs)

theorem openInv_init : OpenInv ({} : St) := by
  constructor
  · rfl
  · intro k sg hsg
    simp at hsg

theorem finish_mem_decomp {es : List Event} (hwf : WF es) (hmem : Event.finish ∈ es) :
    ∃ body, es = body ++ [Event.finish] ∧ ∀ e ∈ body, e ≠ Event.finish := by
  have hne : es ≠ [] := by rintro rfl; simp at hmem
  have hdec := List.dropLast_append_getLast hne
  have hg : es.getLast hne = Event.finish := by
    rw [← hdec] at hmem
    rcases List.mem_append.mp hmem with h1 | h2
    · exact absurd rfl (hwf _ h1)
    · exact (List.mem_singleton.mp h2).symm
  exact ⟨es.dropLast, by rw [← hg, hdec], hwf⟩

theorem closingSummary_runSteps (tools : String → Option RBehavior) (es : List Event)
    (h : WF es) :
    ∃ c, (c = (runSteps tools es).segments.length ∨
        c + 1 = (runSteps tools es).segments.length) ∧
      ClosingState (runSteps tools es) c := by
  by_cases hf : Event.finish ∈ es
  · rcases finish_mem_decomp h hf with ⟨body, rfl, hbody⟩
    have hsplit : runSteps tools (body ++ [Event.finish]) =
        step tools body.length (runSteps tools body) Event.finish := by
      unfold runSteps
      rw [stepsAux_append tools body [Event.finish] 0 {}]
      simp [stepsAux]
    rw [hsplit]
    have hOpen : OpenInv (runSteps tools body) :=
      openInv_stepsAux tools body 0 {} hbody openInv_init
    by_cases herr : (runSteps tools body).errored.isSome
    · rw [step_frozen tools _ _ herr]
      rcases Nat.eq_zero_or_pos (runSteps tools body).segments.length with h0 | h0
      · refine ⟨0, Or.inl h0.symm, ?_⟩
        have h1 : OpenInv (runSteps tools body) := hOpen
        unfold OpenInv at h1
        rwa [h0] at h1
      · exact ⟨(runSteps tools body).segments.length - 1, Or.inr (by omega), hOpen⟩
    · have hstep : step tools body.length (runSteps tools body) Event.finish
          = markLastSegmentDone body.length (runSteps tools body) := by
        unfold step
        simp [herr]
      rw [hstep]
      rcases closingState_markLast body.length hOpen with ⟨hcs, _⟩
      exact ⟨(runSteps tools body).segments.length, Or.inl (markLast_length _ _).symm, hcs⟩
  · have hOpen : OpenInv (runSteps tools es) :=
      openInv_stepsAux tools es 0 {} (fun e he hfin => hf (hfin ▸ he)) openInv_init
    rcases Nat.eq_zero_or_pos (runSteps tools es).segments.length with h0 | h0
    · refine ⟨0, Or.inl h0.symm, ?_⟩
      have h1 : OpenInv (runSteps tools es) := hOpen
      unfold OpenInv at h1
      rwa [h0] at h1
    · exact ⟨(runSteps tools es).segments.length - 1, Or.inr (by omega), hOpen⟩

theorem runStream_not_errored (tools : String → Option RBehavior) (es : List Event)
    (h : ∀ e ∈ es, e.isErr = false) :
    runStream tools es = emit es.length Act.uiDone (runSteps tools es) := by
  have hn : (runSteps tools es).errored = none :=
    stepsAux_errored_none tools es 0 {} h rfl
  unfold runStream
  simp [hn]

theorem closingState_runStream_of_runSteps (tools : String → Option RBehavior)
    (es : List Event) (c : Nat) (h : ClosingState (runSteps tools es) c) :
    ClosingState (runStream tools es) c := by
  unfold runStream
  by_cases herr : (runSteps tools es).errored.isSome
  · simpa [herr] using h
  · simp only [herr, if_false, Bool.false_eq_true]
    exact closingState_ext c (by simp [emit]) [Act.uiDone] (by simp [emit, St.acts])
      (by simp [Act.isClosing]) h

/-! ### Claim C5 -/

/-- C5: for every well-formed event sequence (`finish` only terminal), there
is a count `c` of closed segments — all segments, or all but the still-open
last one — such that the trace's closing actions are exactly the canonical
closing blocks of the first `c` segments in creation order: each closed
segment is notified by `onSegment` exactly once, in closing order, a text
segment's sink sealing (`stream.done()`) immediately precedes its own
notification, and every closing action of segment `k` precedes every closing
action of segment `k+1`; segments beyond `c` are never notified. -/
theorem onSegment_once_in_order (tools : String → Option RBehavior)
    (es : List Event) (h : WF es) :
    ∃ c, (c = (runStream tools es).segments.length ∨
        c + 1 = (runStream tools es).segments.length) ∧
      ClosingState (runStream tools es) c := by
  rcases closingSummary_runSteps tools es h with ⟨c, hc, hcs⟩
  refine ⟨c, ?_, closingState_runStream_of_runSteps tools es c hcs⟩
  rwa [runStream_segments]

/-- C5 witness: Scenario B's events are well-formed and the run satisfies the
closing-order property. -/
theorem onSegment_once_in_order_witness :
    WF scenB ∧
      ∃ c, (c = (runStream tools0 scenB).segments.length ∨
          c + 1 = (runStream tools0 scenB).segments.length) ∧
        ClosingState (runStream tools0 scenB) c :=
  ⟨by unfold WF; decide, onSegment_once_in_order tools0 scenB (by unfold WF; decide)⟩

/-! ### Counting notifications (claim C10) -/

theorem filter_notify_closingOf (l : List Act) :
    (closingOf l).filter Act.isNotify = l.filter Act.isNotify := by
  unfold closingOf
  rw [List.filter_filter]
  apply List.filter_congr
  intro a _
  cases a <;> simp [Act.isNotify, Act.isClosing]

theorem closingActsOf_notify (sgs : List Seg) :
    ∀ c, c ≤ sgs.length →
      (closingActsOf sgs c).filter Act.isNotify = (List.range c).map Act.notify
  | 0, _ => rfl
  | c + 1, hc => by
      have hclt : c < sgs.length := by omega
      have hsg : sgs[c]? = some sgs[c] := List.getElem?_eq_getElem hclt
      rw [closingActsOf_succ, hsg]
      rw [List.filter_append, closingActsOf_notify sgs c (by omega), List.range_succ,
        List.map_append]
      congr 1
      cases hk : (sgs[c]).kind <;> simp [closingBlock, hk, Act.isNotify]

/-! ### Claim C10 -/

/-- C10: when the upstream stream is exhausted without ever emitting `finish`
(and without an error), the loop just calls `ui.done()` and exits, so the last
segment (if any) is never closed: it is never notified via `onSegment`, its
text sink is never sealed, the number of `onSegment` invocations is one fewer
than the number of segments created, and yet the overall display sink is
sealed with `done`. -/
theorem missing_finish_leaves_last_unclosed (tools : String → Option RBehavior)
    (es : List Event) (h1 : ∀ e ∈ es, e ≠ Event.finish)
    (h2 : ∀ e ∈ es, e.isErr = false) :
    ((runStream tools es).acts.filter Act.isNotify).length
        = (runStream tools es).segments.length - 1 ∧
    (∀ sg, (runStream tools es).segments.getLast? = some sg →
        sg.notified = false ∧ (sg.kind = SegKind.text → sg.sinkDone = false)) ∧
    (runStream tools es).acts.getLast? = some Act.uiDone := by
  have hOpen : OpenInv (runSteps tools es) :=
    openInv_stepsAux tools es 0 {} h1 openInv_init
  have hcs : ClosingState (runStream tools es) ((runSteps tools es).segments.length - 1) :=
    closingState_runStream_of_runSteps tools es _ hOpen
  have hseg := runStream_segments tools es
  refine ⟨?_, ?_, ?_⟩
  · rw [← filter_notify_closingOf, hcs.1, hseg]
    rw [closingActsOf_notify (runSteps tools es).segments _ (by omega)]
    simp
  · intro sg hsg
    rw [List.getLast?_eq_getElem?] at hsg
    have hidx := hcs.2 _ sg hsg
    rw [hseg] at hidx
    have hlt : ¬ ((runSteps tools es).segments.length - 1 <
        (runSteps tools es).segments.length - 1) := by
      omega
    constructor
    · rcases hb : sg.notified with _ | _
      · rfl
      · exact absurd (hidx.1.mp hb) hlt
    · intro ht
      rcases hb : sg.sinkDone with _ | _
      · rfl
      · exact absurd ((hidx.2 ht).mp hb) hlt
  · rw [runStream_not_errored tools es h2]
    simp

/-- C10 witness: on `[text-delta "a", tool-call]` with the stream exhausted
before any `finish`, two segments are created, `onSegment` fires once, and the
last segment is left unnotified while `ui.done()` still seals the display. -/
theorem missing_finish_leaves_last_unclosed_witness :
    (∀ e ∈ esNoFin, e ≠ Event.finish) ∧ (∀ e ∈ esNoFin, e.isErr = false) ∧
    (((runStream tools0 esNoFin).acts.filter Act.isNotify).length
        = (runStream tools0 esNoFin).segments.length - 1 ∧
      (∀ sg, (runStream tools0 esNoFin).segments.getLast? = some sg →
          sg.notified = false ∧ (sg.kind = SegKind.text → sg.sinkDone = false)) ∧
      (runStream tools0 esNoFin).acts.getLast? = some Act.uiDone) :=
  ⟨by decide, by decide,
    missing_finish_leaves_last_unclosed tools0 esNoFin (by decide) (by decide)⟩

/-! ### Claim C2 (amended) -/

/-- C2 (amended): when an `error` event arrives, the currently open segment
is NOT closed first: the loop throws `value.error` immediately, so the final
state is exactly the state before the error with only `ui.error(cause)`
appended and the error recorded — the open segment keeps its pending
notification and unsealed sink, no further events are processed, and no
further segments are created (the trailing events `r` have no effect). -/
theorem error_halts_without_closing (tools : String → Option RBehavior)
    (p r : List Event) (c : String) (hp : ∀ e ∈ p, e.isErr = false) :
    runStream tools (p ++ Event.error c :: r) =
      { runSteps tools p with
        trace := (runSteps tools p).trace ++ [(p.length, Act.uiError c)],
        errored := some c } := by
  have hn : (runSteps tools p).errored = none :=
    stepsAux_errored_none tools p 0 {} hp rfl
  have hsplit : runSteps tools (p ++ Event.error c :: r)
      = stepsAux tools (p.length + 1)
          (step tools p.length (runSteps tools p) (Event.error c)) r := by
    unfold runSteps
    rw [stepsAux_append tools p (Event.error c :: r) 0 {}]
    simp only [Nat.zero_add]
    rfl
  have hstep : step tools p.length (runSteps tools p) (Event.error c)
      = { emit p.length (Act.uiError c) (runSteps tools p) with errored := some c } := by
    unfold step
    simp [hn]
  have hrun : runSteps tools (p ++ Event.error c :: r)
      = { emit p.length (Act.uiError c) (runSteps tools p) with errored := some c } := by
    rw [hsplit, hstep]
    exact stepsAux_frozen tools r _ _ (by simp)
  unfold runStream
  rw [hrun]
  simp [emit]

/-- C2 amended-claim witness: Scenario D halts in the error state with the
open segment unclosed. -/
theorem error_halts_without_closing_witness :
    (∀ e ∈ [Event.textDelta "ok"], e.isErr = false) ∧
    runStream tools0 ([Event.textDelta "ok"] ++ Event.error "E" :: [Event.finish]) =
      { runSteps tools0 [Event.textDelta "ok"] with
        trace := (runSteps tools0 [Event.textDelta "ok"]).trace ++ [(1, Act.uiError "E")],
        errored := some "E" } :=
  ⟨by decide, error_halts_without_closing tools0 [Event.textDelta "ok"] [Event.finish] "E" (by decide)⟩

/-! ### Claim C4 (amended) -/

theorem markLast_getElem? (t : Nat) {s : St} {k : Nat} {sg : Seg}
    (h : s.segments[k]? = some sg) :
    ∃ sg', (markLastSegmentDone t s).segments[k]? = some sg' ∧ sg'.kind = sg.kind ∧
      sg'.toolCallId = sg.toolCallId ∧ sg'.toolName = sg.toolName ∧
      sg'.args = sg.args := by
  rcases s.segments.eq_nil_or_concat with hnil | ⟨S', last, hc⟩
  · rw [hnil] at h; simp at h
  · rw [List.concat_eq_append] at hc
    have hsegs : (markLastSegmentDone t s).segments = S' ++ [closeSeg last] := by
      rw [markLast_concat t hc]
    rw [hc] at h
    rcases getElem?_concat_cases h with ⟨hk, hget⟩ | ⟨hk, hx⟩
    · exact ⟨sg, by rw [hsegs, getElem?_append_left_of_lt _ hk]; exact hget,
        rfl, rfl, rfl, rfl⟩
    · subst hx
      subst hk
      exact ⟨closeSeg sg, by rw [hsegs]; exact List.getElem?_concat_length _ _,
        by simp, by simp, by simp, by simp⟩

theorem addSegment_getElem? (t : Nat) (sgNew : Seg) {s : St} {k : Nat} {sg : Seg}
    (h : s.segments[k]? = some sg) :
    ∃ sg', (addSegment t sgNew s).segments[k]? = some sg' ∧ sg'.kind = sg.kind ∧
      sg'.toolCallId = sg.toolCallId ∧ sg'.toolName = sg.toolName ∧
      sg'.args = sg.args := by
  rcases markLast_getElem? t h with ⟨sg', h1, h2, h3, h4, h5⟩
  refine ⟨sg', ?_, h2, h3, h4, h5⟩
  have hk : k < (markLastSegmentDone t s).segments.length := by
    by_contra hge
    rw [List.getElem?_eq_none (by omega)] at h1
    exact Option.noConfusion h1
  show ((markLastSegmentDone t s).segments ++ [sgNew])[k]? = some sg'
  rw [getElem?_append_left_of_lt _ hk]
  exact h1

theorem step_preserves_toolSegment (tools : String → Option RBehavior) (t : Nat)
    (e : Event) (s : St) (k : Nat) (sg : Seg)
    (h : s.segments[k]? = some sg) (htool : sg.kind = SegKind.tool) :
    ∃ sg', (step tools t s e).segments[k]? = some sg' ∧ sg'.kind = SegKind.tool ∧
      sg'.toolCallId = sg.toolCallId ∧ sg'.toolName = sg.toolName ∧
      sg'.args = sg.args := by
  unfold step
  by_cases he : s.errored.isSome
  · simp only [he, if_true]
    exact ⟨sg, h, htool, rfl, rfl, rfl⟩
  · simp only [he, if_false, Bool.false_eq_true]
    cases e with
    | textDelta d =>
        have hgoal : ∃ sg', (streamTextSegment t d s).segments[k]? = some sg' ∧
            sg'.kind = SegKind.tool ∧ sg'.toolCallId = sg.toolCallId ∧
            sg'.toolName = sg.toolName ∧ sg'.args = sg.args := by
          rcases s.segments.eq_nil_or_concat with hnil | ⟨S', last, hc⟩
          · rw [hnil] at h; simp at h
          · rw [List.concat_eq_append] at hc
            cases hk2 : last.kind
            · rw [streamText_extend t d hc hk2]
              rw [hc] at h
              rcases getElem?_concat_cases h with ⟨hk, hget⟩ | ⟨hk, hx⟩
              · refine ⟨sg, ?_, htool, rfl, rfl, rfl⟩
                show (S' ++ [extendSeg d last])[k]? = some sg
                rw [getElem?_append_left_of_lt _ hk]
                exact hget
              · subst hx
                rw [hk2] at htool
                exact absurd htool (by simp)
            · rw [streamText_new_tool t d hc hk2]
              rcases addSegment_getElem? t (seedSeg d)
                  (s := appendUI t s.segments.length s)
                  (by rw [appendUI_segments]; exact h) with ⟨sg', h1, h2, h3, h4, h5⟩
              exact ⟨sg', h1, by rw [h2]; exact htool, h3, h4, h5⟩
        exact hgoal
    | toolCallDelta => exact ⟨sg, h, htool, rfl, rfl, rfl⟩
    | toolCall id name args =>
        have hgoal : ∃ sg', (streamToolSegment tools t id name args s).segments[k]?
            = some sg' ∧ sg'.kind = SegKind.tool ∧ sg'.toolCallId = sg.toolCallId ∧
            sg'.toolName = sg.toolName ∧ sg'.args = sg.args := by
          unfold streamToolSegment
          cases htl : tools name
          · rcases addSegment_getElem? t (toolSeg id name args)
                (s := emit t (Act.toolDone s.segments.length "Tool not found")
                  (appendUI t s.segments.length s))
                (by rw [emit_segments, appendUI_segments]; exact h) with ⟨sg', h1, h2, h3, h4, h5⟩
            exact ⟨sg', h1, by rw [h2]; exact htool, h3, h4, h5⟩
          · rename_i rb
            rw [addSegment_tasksSet]
            rcases addSegment_getElem? t (toolSeg id name args)
                (s := emits t (renderInline s.segments.length rb) (appendUI t s.segments.length s))
               
                (by rw [emits_segments, appendUI_segments]; exact h) with ⟨sg', h1, h2, h3, h4, h5⟩
            exact ⟨sg', h1, by rw [h2]; exact htool, h3, h4, h5⟩
        exact hgoal
    | error c => exact ⟨sg, h, htool, rfl, rfl, rfl⟩
    | finish =>
        rcases markLast_getElem? t h with ⟨sg', h1, h2, h3, h4, h5⟩
        exact ⟨sg', h1, by rw [h2]; exact htool, h3, h4, h5⟩

/-- C4 (amended): a ToolSegment is immutable from its creation — no later
event-processing step ever changes its id, name or args, and it can never be
extended (it stays a tool segment) — but its closing notification is NOT part
of its creation step: like any other segment it stays unnotified until the
next segment is created or `finish` arrives, so between steps the segment
with pending notification may be a ToolSegment; what does hold for every
well-formed run is that every segment except the last has been notified. -/
theorem toolSegment_immutable_notify_deferred :
    (∀ (tools : String → Option RBehavior) (t : Nat) (e : Event) (s : St)
        (k : Nat) (sg : Seg), s.segments[k]? = some sg → sg.kind = SegKind.tool →
        ∃ sg', (step tools t s e).segments[k]? = some sg' ∧ sg'.kind = SegKind.tool ∧
          sg'.toolCallId = sg.toolCallId ∧ sg'.toolName = sg.toolName ∧
          sg'.args = sg.args) ∧
    (∀ (tools : String → Option RBehavior) (es : List Event), WF es →
        ∀ (k : Nat) (sg : Seg), (runStream tools es).segments[k]? = some sg →
          k + 1 < (runStream tools es).segments.length → sg.notified = true) := by
  constructor
  · exact step_preserves_toolSegment
  · intro tools es hwf k sg hsg hk
    rcases closingSummary_runSteps tools es hwf with ⟨c, hc, hcs⟩
    have hcs2 := closingState_runStream_of_runSteps tools es c hcs
    have hidx := hcs2.2 k sg hsg
    apply hidx.1.mpr
    rw [runStream_segments] at hk
    rcases hc with hc | hc <;> omega

/-- C4 amended-claim witness: the tool segment created by a single tool-call
keeps its id, name and args across the following `finish` step, and in
Scenario B's completed run the non-last (text) segment has been notified. -/
theorem toolSegment_immutable_notify_deferred_witness :
    (∃ sg', (step tools0 1 (runSteps tools0 [Event.toolCall "1" "lookup" "q"])
          Event.finish).segments[0]? = some sg' ∧ sg'.kind = SegKind.tool ∧
        sg'.toolCallId = (toolSeg "1" "lookup" "q").toolCallId ∧
        sg'.toolName = (toolSeg "1" "lookup" "q").toolName ∧
        sg'.args = (toolSeg "1" "lookup" "q").args) ∧
    (⟨SegKind.text, ["Let me check"], "Let me check", "", "", "", true, true⟩ : Seg).notified
        = true :=
  ⟨toolSegment_immutable_notify_deferred.1 tools0 1 Event.finish
      (runSteps tools0 [Event.toolCall "1" "lookup" "q"]) 0 (toolSeg "1" "lookup" "q")
      (by decide) (by decide),
    toolSegment_immutable_notify_deferred.2 tools0 scenB (by unfold WF; decide) 0
      ⟨SegKind.text, ["Let me check"], "Let me check", "", "", "", true, true⟩
      (by decide) (by decide)⟩

/-! ### Timed-trace lemmas -/

theorem le_foldrMax {l : List (Nat × Act)} {p : Nat × Act} (h : p ∈ l) :
    p.1 ≤ l.foldr (fun q m => max q.1 m) 0 := by
  induction l with
  | nil => simp at h
  | cons q r ih =>
      rcases List.mem_cons.mp h with rfl | h2
      · exact le_max_left _ _
      · exact le_trans (ih h2) (le_max_right _ _)

theorem lt_timeBound {l : List (Nat × Act)} {p : Nat × Act} (h : p ∈ l) :
    p.1 < timeBound l :=
  Nat.lt_succ_of_le (le_foldrMax h)

theorem mem_filterTime_map {l : List (Nat × Act)} {a : Act} {t : Nat} :
    a ∈ (l.filter (fun p => p.1 == t)).map Prod.snd ↔ (t, a) ∈ l := by
  constructor
  · intro h
    rcases List.mem_map.mp h with ⟨p, hp, hpa⟩
    rcases List.mem_filter.mp hp with ⟨hpl, hpt⟩
    have h1 : p.1 = t := by simpa using hpt
    have h2 : p = (t, a) := by
      cases p
      simp_all
    rwa [h2] at hpl
  · intro h
    exact List.mem_map.mpr ⟨(t, a), List.mem_filter.mpr ⟨h, by simp⟩, rfl⟩

theorem mem_actsAt_iff {main tsk : List (Nat × Act)} {a : Act} {t : Nat} :
    a ∈ actsAt main tsk t ↔ ((t, a) ∈ main ∨ (t, a) ∈ tsk) := by
  unfold actsAt
  rw [List.mem_append, mem_filterTime_map, mem_filterTime_map]

theorem mem_timedTrace {tools : String → Option RBehavior} {es : List Event} {a : Act} :
    a ∈ timedTrace tools es ↔
      ∃ t, (t, a) ∈ mainOf tools es ∨ (t, a) ∈ tskOf tools es := by
  unfold timedTrace
  rw [mem_catLists]
  constructor
  · rintro ⟨l, hl, hal⟩
    rcases List.mem_map.mp hl with ⟨t, _, rfl⟩
    exact ⟨t, mem_actsAt_iff.mp hal⟩
  · rintro ⟨t, ht⟩
    refine ⟨actsAt (mainOf tools es) (tskOf tools es) t,
      List.mem_map.mpr ⟨t, ?_, rfl⟩, mem_actsAt_iff.mpr ht⟩
    refine List.mem_range.mpr (lt_timeBound (p := (t, a)) ?_)
    rcases ht with h | h
    · exact List.mem_append.mpr (Or.inl h)
    · exact List.mem_append.mpr (Or.inr h)

theorem agActs_render (sg : Nat) :
    ∀ (ys : List (Nat × String)) (t0 rl : Nat) (ret : String),
      ∀ p ∈ agActs sg t0 ys rl ret, (Prod.snd p).isRender = true
  | [], t0, rl, ret, p, hp => by
      simp [agActs] at hp
      simp [hp, Act.isRender]
  | (lat, node) :: ys, t0, rl, ret, p, hp => by
      rcases List.mem_cons.mp hp with rfl | h2
      · simp [Act.isRender]
      · exact agActs_render sg ys (t0 + 1 + lat) rl ret p h2

theorem taskActs_render (tk : Task) : ∀ p ∈ taskActs tk, (Prod.snd p).isRender = true := by
  intro p hp
  unfold taskActs at hp
  cases htk : tk.rb <;> rw [htk] at hp
  case plain => simp at hp
  case syncGen => simp at hp
  case promiseLat lat node =>
      simp at hp
      simp [hp, Act.isRender]
  case asyncGen ys rl ret => exact agActs_render tk.seg ys tk.spawnTick rl ret p hp
  case fails => simp at hp

theorem tskOf_render (tools : String → Option RBehavior) (es : List Event) :
    ∀ p ∈ tskOf tools es, (Prod.snd p).isRender = true := by
  intro p hp
  unfold tskOf at hp
  rcases mem_catLists.mp hp with ⟨l, hl, hpl⟩
  rcases List.mem_map.mp hl with ⟨tk, _, rfl⟩
  exact taskActs_render tk p hpl

/-! ### Loop-trace characterisation (for claim C9) -/

theorem trace_comp {r s u : St} {P : Nat × Act → Prop}
    (h12 : ∃ ex, s.trace = r.trace ++ ex ∧ ∀ p ∈ ex, P p)
    (h23 : ∃ ex, u.trace = s.trace ++ ex ∧ ∀ p ∈ ex, P p) :
    ∃ ex, u.trace = r.trace ++ ex ∧ ∀ p ∈ ex, P p := by
  rcases h12 with ⟨e1, he1, hp1⟩
  rcases h23 with ⟨e2, he2, hp2⟩
  refine ⟨e1 ++ e2, by rw [he2, he1, List.append_assoc], ?_⟩
  intro p hp
  rcases List.mem_append.mp hp with h | h
  · exact hp1 p h
  · exact hp2 p h

theorem markLast_trace (t : Nat) (s : St) :
    ∃ ex, (markLastSegmentDone t s).trace = s.trace ++ ex ∧
      ∀ p ∈ ex, p.1 = t ∧ (Prod.snd p).isClosing = true := by
  rcases s.segments.eq_nil_or_concat with hnil | ⟨S', last, hc⟩
  · rw [markLast_nil t hnil]
    exact ⟨[], by simp, by simp⟩
  · rw [List.concat_eq_append] at hc
    rw [markLast_concat t hc]
    refine ⟨(closingBlock S'.length last.kind).map (fun a => (t, a)), rfl, ?_⟩
    intro p hp
    rcases List.mem_map.mp hp with ⟨a, ha, rfl⟩
    refine ⟨rfl, ?_⟩
    unfold closingBlock at ha
    rcases List.mem_append.mp ha with h1 | h2
    · split at h1 <;> simp at h1
      simp [h1, Act.isClosing]
    · simp at h2
      simp [h2, Act.isClosing]

theorem addSegment_trace (t : Nat) (sg : Seg) (s : St) :
    ∃ ex, (addSegment t sg s).trace = s.trace ++ ex ∧
      ∀ p ∈ ex, p.1 = t ∧ (Prod.snd p).isClosing = true := by
  rcases markLast_trace t s with ⟨ex, hex, hp⟩
  exact ⟨ex, hex, hp⟩

theorem appendUI_trace (t k : Nat) (s : St) :
    ∃ ex, (appendUI t k s).trace = s.trace ++ ex ∧
      ∀ p ∈ ex, p.1 = t ∧ (Prod.snd p).isMount = true := by
  unfold appendUI
  by_cases h0 : s.initialRemoved
  · rw [if_pos h0]
    exact ⟨[(t, Act.uiAppend k)], rfl, by simp [Act.isMount]⟩
  · rw [if_neg h0]
    exact ⟨[(t, Act.uiUpdate k)], rfl, by simp [Act.isMount]⟩

theorem isClosing_chars {a : Act} (h : a.isClosing = true) :
    a ≠ Act.uiDone ∧ a.isUiErr = false := by
  cases a <;> simp_all [Act.isClosing, Act.isUiErr]

theorem isMount_chars {a : Act} (h : a.isMount = true) :
    a ≠ Act.uiDone ∧ a.isUiErr = false := by
  cases a <;> simp_all [Act.isMount, Act.isUiErr]

theorem isRender_chars {a : Act} (h : a.isRender = true) :
    a ≠ Act.uiDone ∧ a.isUiErr = false := by
  cases a <;> simp_all [Act.isRender, Act.isUiErr]

theorem renderInline_render (k : Nat) (rb : RBehavior) :
    ∀ a ∈ renderInline k rb, a.isRender = true := by
  intro a ha
  cases rb <;> simp [renderInline] at ha
  case plain node => simp [ha, Act.isRender]
  case syncGen yields ret =>
      rcases ha with ⟨x, _, hx⟩ | h2
      · simp [← hx, Act.isRender]
      · simp [h2, Act.isRender]

theorem streamText_trace (t : Nat) (d : String) (s : St) :
    ∃ ex, (streamTextSegment t d s).trace = s.trace ++ ex ∧
      ∀ p ∈ ex, p.1 = t ∧ Prod.snd p ≠ Act.uiDone ∧ (Prod.snd p).isUiErr = false := by
  rcases s.segments.eq_nil_or_concat with hnil | ⟨S', last, hc⟩
  · rw [streamText_new_nil t d hnil]
    refine trace_comp (s := appendUI t 0 s) ?_ ?_
    · rcases appendUI_trace t 0 s with ⟨ex, hex, hp⟩
      exact ⟨ex, hex, fun p hp2 => ⟨(hp p hp2).1, isMount_chars (hp p hp2).2⟩⟩
    · rcases addSegment_trace t (seedSeg d) (appendUI t 0 s) with ⟨ex, hex, hp⟩
      exact ⟨ex, hex, fun p hp2 => ⟨(hp p hp2).1, isClosing_chars (hp p hp2).2⟩⟩
  · rw [List.concat_eq_append] at hc
    cases hk : last.kind
    · rw [streamText_extend t d hc hk]
      exact ⟨[(t, Act.textAppend S'.length d)], rfl, by simp [Act.isUiErr]⟩
    · rw [streamText_new_tool t d hc hk]
      refine trace_comp (s := appendUI t s.segments.length s) ?_ ?_
      · rcases appendUI_trace t s.segments.length s with ⟨ex, hex, hp⟩
        exact ⟨ex, hex, fun p hp2 => ⟨(hp p hp2).1, isMount_chars (hp p hp2).2⟩⟩
      · rcases addSegment_trace t (seedSeg d) (appendUI t s.segments.length s) with ⟨ex, hex, hp⟩
        exact ⟨ex, hex, fun p hp2 => ⟨(hp p hp2).1, isClosing_chars (hp p hp2).2⟩⟩

theorem streamTool_trace (tools : String → Option RBehavior) (t : Nat)
    (id name args : String) (s : St) :
    ∃ ex, (streamToolSegment tools t id name args s).trace = s.trace ++ ex ∧
      ∀ p ∈ ex, p.1 = t ∧ Prod.snd p ≠ Act.uiDone ∧ (Prod.snd p).isUiErr = false := by
  unfold streamToolSegment
  cases htl : tools name
  · refine trace_comp (s := emit t (Act.toolDone s.segments.length "Tool not found")
      (appendUI t s.segments.length s)) ?_ ?_
    · refine trace_comp (s := appendUI t s.segments.length s) ?_ ?_
      · rcases appendUI_trace t s.segments.length s with ⟨ex, hex, hp⟩
        exact ⟨ex, hex, fun p hp2 => ⟨(hp p hp2).1, isMount_chars (hp p hp2).2⟩⟩
      · exact ⟨[(t, Act.toolDone s.segments.length "Tool not found")], rfl,
          by simp [Act.isUiErr]⟩
    · rcases addSegment_trace t (toolSeg id name args) _ with ⟨ex, hex, hp⟩
      exact ⟨ex, hex, fun p hp2 => ⟨(hp p hp2).1, isClosing_chars (hp p hp2).2⟩⟩
  · rename_i rb
    rw [addSegment_tasksSet]
    show ∃ ex, (addSegment t (toolSeg id name args)
        (emits t (renderInline s.segments.length rb) (appendUI t s.segments.length s))).trace
      = s.trace ++ ex ∧ _
    refine trace_comp (s := emits t (renderInline s.segments.length rb)
      (appendUI t s.segments.length s)) ?_ ?_
    · refine trace_comp (s := appendUI t s.segments.length s) ?_ ?_
      · rcases appendUI_trace t s.segments.length s with ⟨ex, hex, hp⟩
        exact ⟨ex, hex, fun p hp2 => ⟨(hp p hp2).1, isMount_chars (hp p hp2).2⟩⟩
      · refine ⟨(renderInline s.segments.length rb).map (fun a => (t, a)), rfl, ?_⟩
        intro p hp
        rcases List.mem_map.mp hp with ⟨a, ha, rfl⟩
        exact ⟨rfl, isRender_chars (renderInline_render s.segments.length rb a ha)⟩
    · rcases addSegment_trace t (toolSeg id name args) _ with ⟨ex, hex, hp⟩
      exact ⟨ex, hex, fun p hp2 => ⟨(hp p hp2).1, isClosing_chars (hp p hp2).2⟩⟩

theorem step_trace_chars (tools : String → Option RBehavior) (t : Nat) (e : Event)
    (he : e.isErr = false) (s : St) :
    ∀ p ∈ (step tools t s e).trace, p ∈ s.trace ∨
      (p.1 = t ∧ Prod.snd p ≠ Act.uiDone ∧ (Prod.snd p).isUiErr = false) := by
  intro p hp
  unfold step at hp
  by_cases hs : s.errored.isSome
  · simp only [hs, if_true] at hp
    exact Or.inl hp
  · simp only [hs, if_false, Bool.false_eq_true] at hp
    cases e with
    | textDelta d =>
        rcases streamText_trace t d s with ⟨ex, hex, hchar⟩
        rw [show (match Event.textDelta d with
            | Event.textDelta d => streamTextSegment t d s
            | Event.toolCallDelta => s
            | Event.toolCall id name args => streamToolSegment tools t id name args s
            | Event.error c => { emit t (Act.uiError c) s with errored := some c }
            | Event.finish => markLastSegmentDone t s)
          = streamTextSegment t d s from rfl] at hp
        rw [hex] at hp
        rcases List.mem_append.mp hp with h | h
        · exact Or.inl h
        · exact Or.inr (hchar p h)
    | toolCallDelta => exact Or.inl hp
    | toolCall id name args =>
        rcases streamTool_trace tools t id name args s with ⟨ex, hex, hchar⟩
        rw [show (match Event.toolCall id name args with
            | Event.textDelta d => streamTextSegment t d s
            | Event.toolCallDelta => s
            | Event.toolCall id name args => streamToolSegment tools t id name args s
            | Event.error c => { emit t (Act.uiError c) s with errored := some c }
            | Event.finish => markLastSegmentDone t s)
          = streamToolSegment tools t id name args s from rfl] at hp
        rw [hex] at hp
        rcases List.mem_append.mp hp with h | h
        · exact Or.inl h
        · exact Or.inr (hchar p h)
    | error c => simp [Event.isErr] at he
    | finish =>
        rcases markLast_trace t s with ⟨ex, hex, hchar⟩
        rw [show (match Event.finish with
            | Event.textDelta d => streamTextSegment t d s
            | Event.toolCallDelta => s
            | Event.toolCall id name args => streamToolSegment tools t id name args s
            | Event.error c => { emit t (Act.uiError c) s with errored := some c }
            | Event.finish => markLastSegmentDone t s)
          = markLastSegmentDone t s from rfl] at hp
        rw [hex] at hp
        rcases List.mem_append.mp hp with h | h
        · exact Or.inl h
        · exact Or.inr ⟨(hchar p h).1, isClosing_chars (hchar p h).2⟩

theorem stepsAux_trace_chars (tools : String → Option RBehavior) :
    ∀ (es : List Event) (i : Nat) (s : St), (∀ e ∈ es, e.isErr = false) →
      ∀ p ∈ (stepsAux tools i s es).trace, p ∈ s.trace ∨
        (i ≤ p.1 ∧ p.1 < i + es.length ∧ Prod.snd p ≠ Act.uiDone ∧
          (Prod.snd p).isUiErr = false)
  | [], _, _, _, p, hp => Or.inl hp
  | e :: es, i, s, h, p, hp => by
      rcases stepsAux_trace_chars tools es (i + 1) (step tools i s e)
          (fun x hx => h x (by simp [hx])) p hp with h1 | h2
      · rcases step_trace_chars tools i e (h e (by simp)) s p h1 with h3 | h4
        · exact Or.inl h3
        · right
          refine ⟨by omega, ?_, h4.2.1, h4.2.2⟩
          rw [h4.1]
          simp
      · right
        refine ⟨by omega, ?_, h2.2.2.1, h2.2.2.2⟩
        have := h2.2.1
        simp at this ⊢
        omega

/-! ### Claim C9 -/

/-- C9: on normal termination (no `error` event), the loop calls `ui.done()`
at the very tick the stream reports exhaustion, before `await finished` — so
in the merged observable trace the overall sink's `done` splits the trace
into a prefix that contains no other `ui.done`, and a suffix consisting
exclusively of per-segment renderer output (tool-sink updates and dones):
the overall sink can be sealed while individual segments' renderers are
still producing updates to their own sinks. -/
theorem uiDone_at_exhaustion_before_pending_renders (tools : String → Option RBehavior)
    (es : List Event) (h : ∀ e ∈ es, e.isErr = false) :
    ∃ p q, timedTrace tools es = p ++ Act.uiDone :: q ∧ Act.uiDone ∉ p ∧
      ∀ a ∈ q, a.isRender = true := by
  have hmain : mainOf tools es = (runSteps tools es).trace ++ [(es.length, Act.uiDone)] := by
    unfold mainOf
    rw [runStream_not_errored tools es h]
    rfl
  have hsteps : ∀ p ∈ (runSteps tools es).trace, p.1 < es.length ∧
      Prod.snd p ≠ Act.uiDone ∧ (Prod.snd p).isUiErr = false := by
    intro p hp
    rcases stepsAux_trace_chars tools es 0 {} h p hp with h1 | h2
    · simp [St.trace] at h1
    · exact ⟨by simpa using h2.2.1, h2.2.2.1, h2.2.2.2⟩
  have hnH : es.length + 1 ≤ timeBound (mainOf tools es ++ tskOf tools es) := by
    have hmem : ((es.length : Nat), Act.uiDone) ∈ mainOf tools es ++ tskOf tools es := by
      refine List.mem_append.mpr (Or.inl ?_)
      rw [hmain]
      simp
    have := lt_timeBound hmem
    omega
  obtain ⟨m, hm⟩ := Nat.exists_eq_add_of_le hnH
  have hsplit : timedTrace tools es =
      catLists ((List.range es.length).map (actsAt (mainOf tools es) (tskOf tools es))) ++
        actsAt (mainOf tools es) (tskOf tools es) es.length ++
        catLists ((List.range m).map
          (fun u => actsAt (mainOf tools es) (tskOf tools es) (es.length + 1 + u))) := by
    unfold timedTrace
    rw [hm, List.range_add, List.map_append, catLists_append, List.range_succ,
      List.map_append, catLists_append, List.map_map]
    have hcomp : (actsAt (mainOf tools es) (tskOf tools es)) ∘
        (fun u => es.length + 1 + u) =
        fun u => actsAt (mainOf tools es) (tskOf tools es) (es.length + 1 + u) := rfl
    rw [hcomp]
    simp [catLists]
  have hFn : actsAt (mainOf tools es) (tskOf tools es) es.length =
      Act.uiDone :: ((tskOf tools es).filter (fun p => p.1 == es.length)).map Prod.snd := by
    unfold actsAt
    rw [hmain, List.filter_append]
    have h1 : (runSteps tools es).trace.filter (fun p => p.1 == es.length) = [] := by
      apply List.filter_eq_nil_iff.mpr
      intro p hp
      have := (hsteps p hp).1
      simp
      omega
    rw [h1]
    simp
  refine ⟨catLists ((List.range es.length).map (actsAt (mainOf tools es) (tskOf tools es))),
    ((tskOf tools es).filter (fun p => p.1 == es.length)).map Prod.snd ++
      catLists ((List.range m).map
        (fun u => actsAt (mainOf tools es) (tskOf tools es) (es.length + 1 + u))),
    ?_, ?_, ?_⟩
  · rw [hsplit, hFn]
    simp [List.append_assoc]
  · intro hmem
    rcases mem_catLists.mp hmem with ⟨l, hl, hal⟩
    rcases List.mem_map.mp hl with ⟨t, htr, rfl⟩
    have htn : t < es.length := List.mem_range.mp htr
    rcases mem_actsAt_iff.mp hal with hM | hT
    · rw [hmain] at hM
      rcases List.mem_append.mp hM with h1 | h2
      · exact (hsteps _ h1).2.1 rfl
      · simp at h2
        omega
    · exact (isRender_chars (tskOf_render tools es _ hT)).1 rfl
  · intro a ha
    rcases List.mem_append.mp ha with h1 | h2
    · rcases List.mem_map.mp h1 with ⟨p, hp, rfl⟩
      exact tskOf_render tools es p (List.mem_filter.mp hp).1
    · rcases mem_catLists.mp h2 with ⟨l, hl, hal⟩
      rcases List.mem_map.mp hl with ⟨u, _, rfl⟩
      rcases mem_actsAt_iff.mp hal with hM | hT
      · rw [hmain] at hM
        rcases List.mem_append.mp hM with hh1 | hh2
        · have := (hsteps _ hh1).1
          simp at this
          omega
        · simp at hh2
          omega
      · exact tskOf_render tools es _ hT

/-- C9 witness: a single tool call whose renderer resolves after three ticks;
the overall sink's `done` is observed with the renderer's output still
outstanding. -/
theorem uiDone_at_exhaustion_before_pending_renders_witness :
    (∀ e ∈ esP, e.isErr = false) ∧
      ∃ p q, timedTrace toolsP esP = p ++ Act.uiDone :: q ∧ Act.uiDone ∉ p ∧
        ∀ a ∈ q, a.isRender = true :=
  ⟨by decide, uiDone_at_exhaustion_before_pending_renders toolsP esP (by decide)⟩

/-! ### Claim C3 (amended) -/

/-- C3 (amended): a renderer failure (throw or rejected promise) is neither
locally recovered nor propagated to the overall display sink: whatever the
latency of the other segment's renderer, the run of two tool calls where
tool "a"'s renderer fails and tool "b"'s resolves to "rb" produces a trace
with no `ui.error` call at all, with `ui.done` still sealing the overall sink
at stream exhaustion, with segment 0's own sink never sealed (its completion
signal is simply never resolved), and with the later segment's render task
completing normally rather than being abandoned. -/
theorem renderer_failure_not_propagated (lb : Nat) :
    (∀ c, Act.uiError c ∉ timedTrace (toolsF lb) esAB) ∧
    Act.uiDone ∈ timedTrace (toolsF lb) esAB ∧
    (∀ nd, Act.toolDone 0 nd ∉ timedTrace (toolsF lb) esAB) ∧
    Act.toolDone 1 "rb" ∈ timedTrace (toolsF lb) esAB := by
  have hmain : mainOf (toolsF lb) esAB =
      [(0, Act.uiUpdate 0), (1, Act.uiAppend 1), (1, Act.notify 0),
       (2, Act.notify 1), (3, Act.uiDone)] := rfl
  have htsk : tskOf (toolsF lb) esAB = [(2 + lb, Act.toolDone 1 "rb")] := rfl
  refine ⟨?_, ?_, ?_, ?_⟩
  · intro c hmem
    rcases mem_timedTrace.mp hmem with ⟨t, hM | hT⟩
    · rw [hmain] at hM
      simp at hM
    · rw [htsk] at hT
      simp at hT
  · exact mem_timedTrace.mpr ⟨3, Or.inl (by rw [hmain]; simp)⟩
  · intro nd hmem
    rcases mem_timedTrace.mp hmem with ⟨t, hM | hT⟩
    · rw [hmain] at hM
      simp at hM
    · rw [htsk] at hT
      simp at hT
  · exact mem_timedTrace.mpr ⟨2 + lb, Or.inr (by rw [htsk]; simp)⟩

/-! ### Claim C1 -/

/-- C1 (amended): per-segment sink `done` calls become observable in
renderer-completion order, not in segment closing order: for the two-tool-call
run, whenever the second segment's promise renderer settles strictly before
the first's (latency `lb + 1 < la`), the display shows segment 1 as fully
settled (its sink's `done` is observable) while segment 0's sink has received
no `done` at all — `handleRender` seals each segment's sink as soon as its
own renderer settles, and the chained `finished` promise serializes only the
aggregate settlement awaited after stream exhaustion, not sink visibility. -/
theorem done_order_follows_completion (la lb : Nat) (h : lb + 1 < la) :
    settledBefore (timedTrace (tools2 la lb) esAB) 1 0 := by
  have hmain : mainOf (tools2 la lb) esAB =
      [(0, Act.uiUpdate 0), (1, Act.uiAppend 1), (1, Act.notify 0),
       (2, Act.notify 1), (3, Act.uiDone)] := rfl
  have htsk : tskOf (tools2 la lb) esAB =
      [(1 + la, Act.toolDone 0 "ra"), (2 + lb, Act.toolDone 1 "rb")] := rfl
  have hT : 2 + lb + 1 ≤
      timeBound (mainOf (tools2 la lb) esAB ++ tskOf (tools2 la lb) esAB) := by
    have hmem : ((2 + lb : Nat), Act.toolDone 1 "rb") ∈
        mainOf (tools2 la lb) esAB ++ tskOf (tools2 la lb) esAB := by
      refine List.mem_append.mpr (Or.inr ?_)
      rw [htsk]
      simp
    have := lt_timeBound hmem
    omega
  obtain ⟨m, hm⟩ := Nat.exists_eq_add_of_le hT
  refine ⟨catLists ((List.range (2 + lb + 1)).map
      (actsAt (mainOf (tools2 la lb) esAB) (tskOf (tools2 la lb) esAB))),
    catLists ((List.range m).map
      (fun u => actsAt (mainOf (tools2 la lb) esAB) (tskOf (tools2 la lb) esAB)
        (2 + lb + 1 + u))),
    ?_, ?_, ?_⟩
  · unfold timedTrace
    rw [hm, List.range_add, List.map_append, catLists_append, List.map_map]
    rfl
  · rw [List.any_eq_true]
    refine ⟨Act.toolDone 1 "rb", ?_, by simp [Act.isDoneOf]⟩
    apply mem_catLists.mpr
    refine ⟨actsAt (mainOf (tools2 la lb) esAB) (tskOf (tools2 la lb) esAB) (2 + lb),
      List.mem_map.mpr ⟨2 + lb, List.mem_range.mpr (by omega), rfl⟩, ?_⟩
    apply mem_actsAt_iff.mpr
    right
    rw [htsk]
    simp
  · rw [List.any_eq_false]
    intro a ha
    rcases mem_catLists.mp ha with ⟨l, hl, hal⟩
    rcases List.mem_map.mp hl with ⟨t, htr, rfl⟩
    have htlt : t < 2 + lb + 1 := List.mem_range.mp htr
    rcases mem_actsAt_iff.mp hal with hM | hTm
    · rw [hmain] at hM
      have ha5 : a ∈ [Act.uiUpdate 0, Act.uiAppend 1, Act.notify 0,
          Act.notify 1, Act.uiDone] := by
        have hmm : Prod.snd (t, a) ∈
            [(0, Act.uiUpdate 0), (1, Act.uiAppend 1), (1, Act.notify 0),
              (2, Act.notify 1), (3, Act.uiDone)].map Prod.snd :=
          List.mem_map.mpr ⟨(t, a), hM, rfl⟩
        simpa using hmm
      simp only [List.mem_cons, List.mem_singleton] at ha5
      rcases ha5 with rfl | rfl | rfl | rfl | rfl | hfalse
      · decide
      · decide
      · decide
      · decide
      · decide
      · simp at hfalse
    · rw [htsk] at hTm
      simp at hTm
      rcases hTm with ⟨hteq, rfl⟩ | ⟨hteq, rfl⟩
      · omega
      · simp [Act.isDoneOf]

/-- C1 amended-claim witness: with latencies 7 and 2 the hypothesis holds and
segment 1 settles visibly before segment 0. -/
theorem done_order_follows_completion_witness :
    2 + 1 < 7 ∧ settledBefore (timedTrace (tools2 7 2) esAB) 1 0 :=
  ⟨by decide, done_order_follows_completion 7 2 (by decide)⟩

/-- C1 counterexample: with segments 0 and 1 both tool calls and renderer
latencies 5 and 0, the display shows segment 1 as fully settled (its sink's
`done` call is observable) strictly before segment 0's renderer has produced
anything: `handleRender` calls `res.done` as soon as its own promise resolves
and never waits for earlier segments' completion signals, so the per-segment
`done` calls are observable in renderer-completion order, refuting the claimed
closing-order visibility. -/
theorem done_order_violated_cex :
    0 < 1 ∧ settledBefore (timedTrace (tools2 5 0) esAB) 1 0 := by
  refine ⟨Nat.zero_lt_one,
    [Act.uiUpdate 0, Act.uiAppend 1, Act.notify 0, Act.notify 1, Act.toolDone 1 "rb"],
    [Act.uiDone, Act.toolDone 0 "ra"], ?_, ?_, ?_⟩ <;> decide

/-! ### Claim C2 -/

/-- C2 counterexample: on events `[text-delta "ok", error E, finish]` the open
text segment is neither sealed nor notified before the error is propagated:
the loop throws `value.error` directly, so `onSegment` never fires, the
segment's text sink `done()` is never called, and the overall sink is sealed
with `ui.error` — refuting the claim that the segment is first closed and
notified. -/
theorem error_skips_segment_close_cex :
    (runStream tools0 scenD).acts = [Act.uiUpdate 0, Act.uiError "E"] ∧
    (runStream tools0 scenD).segments.all (fun sg => !sg.notified && !sg.sinkDone) = true ∧
    (runStream tools0 scenD).segments.length = 1 := by
  refine ⟨?_, ?_, ?_⟩ <;> decide

/-! ### Claim C3 -/

/-- C3 counterexample: when tool "a"'s renderer fails (latency-5 scenario with
tool "b" resolving after 1 tick), the overall display sink is NOT sealed in an
error state: the full observable trace ends with `ui.done()` (called at stream
exhaustion, before `await finished` which never settles), contains no
`ui.error` call at all, never seals segment 0's sink, and segment 1's render
task still completes normally instead of being abandoned. -/
theorem renderer_failure_no_ui_error_cex :
    timedTrace (toolsF 1) esAB =
      [Act.uiUpdate 0, Act.uiAppend 1, Act.notify 0, Act.notify 1,
        Act.uiDone, Act.toolDone 1 "rb"] ∧
    (timedTrace (toolsF 1) esAB).any Act.isUiErr = false ∧
    (timedTrace (toolsF 1) esAB).any (Act.isDoneOf 0) = false ∧
    Act.uiDone ∈ timedTrace (toolsF 1) esAB := by
  refine ⟨?_, ?_, ?_, ?_⟩ <;> decide

/-! ### Claim C4 -/

/-- C4 counterexample: immediately after processing a single `tool-call` event
(a point between event-processing steps), the only segment is a ToolSegment
whose `onSegment` notification is still pending — `addSegment` only ran
`markLastSegmentDone` for the *previous* segment, and the tool segment itself
will be notified on the next segment's creation or on `finish`.  This refutes
the claim that the ToolSegment is closed atomically in its creation step, so
that only a TextSegment could be awaiting its closing notification between
steps. -/
theorem toolSegment_pending_notification_cex :
    (runSteps tools0 [Event.toolCall "1" "lookup" "q"]).segments.map Seg.kind
      = [SegKind.tool] ∧
    (runSteps tools0 [Event.toolCall "1" "lookup" "q"]).segments.all
      (fun sg => !sg.notified) = true := by
  refine ⟨?_, ?_⟩ <;> decide

/-! ### Claim C8 -/

/-- C8: processing a `tool-call-delta` event is a complete no-op: the
resulting state — segment list, every accumulator, every closing flag, the
trace of display-sink actions and `onSegment` notifications, and the spawned
tasks — is identical to the state before the event. -/
theorem toolCallDelta_noop (tools : String → Option RBehavior) (t : Nat) (s : St) :
    step tools t s Event.toolCallDelta = s := by
  cases h : s.errored <;> simp [step, h]

end StreamMulti
